import Mathlib

/-
  Verification of the metadata store and path-consistency subsystem of the
  gorae PDF library manager (package meta, store.go; package app, recently
  opened materializer).

  Modelling conventions:
  * SQLite rows of the `metadata` table are modelled by `Row`; the table is a
    `List Row`.  TEXT columns that may be NULL are `Option String` (NULL =
    `none`); `favorite`/`to_read` are stored as 0/1 INTEGER and modelled as
    `Bool`; the two timestamp columns are Unix seconds modelled as `Nat`
    where `0` means NULL-or-zero (every read and every conditional in the
    source applies `COALESCE(col, 0)`, so NULL and 0 are indistinguishable
    for these two columns).
  * The Go struct `meta.Metadata` is modelled by `Metadata`; `time.Time`
    values are Unix seconds (`Nat`) with `0` playing the role of the zero
    time (`IsZero`), matching how the source only ever compares via
    `IsZero` and stores via `Unix()`.
  * `time.Now()` is passed in explicitly as a `now : Nat` parameter.
  * Go `strings.TrimSpace` / `strings.ToLower` are modelled with the ASCII
    character predicates of Lean (`Char.isWhitespace`, `Char.toLower`);
    the reading-state enum values and all inputs appearing in the claims
    are ASCII, where the two agree.
  * SQLite's LIKE operator is modelled including its default ASCII
    case-insensitivity (`Char.toLower` is exactly the ASCII fold SQLite
    applies); no `case_sensitive_like` pragma is set anywhere in the
    repository.
-/

set_option autoImplicit false

namespace Gorae

/-- Go `strings.TrimSpace` (ASCII whitespace suffices for all values here). -/
def trimSpace (s : String) : String :=
  String.mk (((s.toList.dropWhile Char.isWhitespace).reverse.dropWhile
    Char.isWhitespace).reverse)

/-- Go `strings.ToLower`, restricted to the ASCII fold. -/
def lowerStr (s : String) : String :=
  String.mk (s.toList.map Char.toLower)

/-- `defaultReadingState` from store.go. -/
def defaultReadingState : String := "unread"

/-- `normalizeReadingState` from store.go: lower-cased, trimmed value; only
"reading" and "read" survive, everything else collapses to "unread". -/
def normalizeReadingState (value : String) : String :=
  let v := lowerStr (trimSpace value)
  if v = "reading" then "reading"
  else if v = "read" then "read"
  else defaultReadingState

/-- The Go struct `meta.Metadata`. -/
structure Metadata where
  path : String
  title : String
  author : String
  year : String
  published : String
  url : String
  doi : String
  abstract : String
  tag : String
  favorite : Bool
  to_read : Bool
  reading_state : String
  added_at : Nat
  last_opened_at : Nat
deriving DecidableEq, Repr

/-- One stored row of the `metadata` table (see the schema in `initSchema`).
NULL-able TEXT columns are `Option String`. -/
structure Row where
  path : String
  title : Option String
  author : Option String
  year : Option String
  published : Option String
  url : Option String
  doi : Option String
  abstract : Option String
  tag : Option String
  reading_state : Option String
  favorite : Bool
  to_read : Bool
  added_at : Nat
  last_opened_at : Nat
deriving DecidableEq, Repr

/-- `scanMetadataRow` from store.go combined with the `IFNULL`/`COALESCE`
wrappers of `metadataSelectColumns`: NULL strings read back as "", the
reading state is normalized on the read path, timestamps `<= 0` read back
as the zero time (identity on `Nat`). -/
def scanMetadataRow (r : Row) : Metadata where
  path := r.path
  title := r.title.getD ""
  author := r.author.getD ""
  year := r.year.getD ""
  published := r.published.getD ""
  url := r.url.getD ""
  doi := r.doi.getD ""
  abstract := r.abstract.getD ""
  tag := r.tag.getD ""
  favorite := r.favorite
  to_read := r.to_read
  reading_state := normalizeReadingState (r.reading_state.getD "")
  added_at := r.added_at
  last_opened_at := r.last_opened_at

/-- The row, if any, stored under `path` (SQL `WHERE path = ?` on the
primary key). -/
def findRow (path : String) (tbl : List Row) : Option Row :=
  tbl.find? (fun r => r.path = path)

/-- `Store.Get` from store.go: exact-match lookup; a miss is `none`, not an
error. -/
def Get (path : String) (tbl : List Row) : Option Metadata :=
  (findRow path tbl).map scanMetadataRow

/-- The row written by the INSERT branch of `Store.Upsert` (all listed
columns from the incoming record, `last_opened_at` not listed, hence NULL,
i.e. `0`). -/
def upsertInsertRow (now : Nat) (m : Metadata) : Row where
  path := m.path
  title := some m.title
  author := some m.author
  year := some m.year
  published := some m.published
  url := some m.url
  doi := some m.doi
  abstract := some m.abstract
  tag := some m.tag
  reading_state := some (normalizeReadingState m.reading_state)
  favorite := m.favorite
  to_read := m.to_read
  added_at := if m.added_at = 0 then now else m.added_at
  last_opened_at := 0

/-- The `ON CONFLICT(path) DO UPDATE` branch of `Store.Upsert` applied to
the existing row `r`: every listed column is overwritten from `excluded`,
`added_at` only when the stored value is zero/NULL, `last_opened_at` is not
touched. -/
def upsertUpdateRow (now : Nat) (m : Metadata) (r : Row) : Row where
  path := r.path
  title := some m.title
  author := some m.author
  year := some m.year
  published := some m.published
  url := some m.url
  doi := some m.doi
  abstract := some m.abstract
  tag := some m.tag
  reading_state := some (normalizeReadingState m.reading_state)
  favorite := m.favorite
  to_read := m.to_read
  added_at := if r.added_at = 0 then (if m.added_at = 0 then now else m.added_at)
              else r.added_at
  last_opened_at := r.last_opened_at

/-- `Store.Upsert` from store.go (`INSERT ... ON CONFLICT(path) DO UPDATE`),
with `time.Now()` passed in as `now`. -/
def Upsert (now : Nat) (m : Metadata) (tbl : List Row) : List Row :=
  if tbl.any (fun r => r.path = m.path) then
    tbl.map (fun r => if r.path = m.path then upsertUpdateRow now m r else r)
  else
    tbl ++ [upsertInsertRow now m]

/-- `Store.RecordOpened` from store.go: empty (trimmed) paths are rejected;
a zero `openedAt` is replaced by `time.Now()`; the INSERT lists only
`path, reading_state, added_at, last_opened_at`, and the conflict branch
updates `last_opened_at` unconditionally and backfills a zero `added_at`. -/
def RecordOpened (now : Nat) (path : String) (openedAt : Nat) (tbl : List Row) :
    Except String (List Row) :=
  if trimSpace path = "" then
    .error "path cannot be empty"
  else
    let ts := if openedAt = 0 then now else openedAt
    if tbl.any (fun r => r.path = path) then
      .ok (tbl.map (fun r =>
        if r.path = path then
          { r with
            last_opened_at := ts
            added_at := if r.added_at = 0 then ts else r.added_at }
        else r))
    else
      .ok (tbl ++ [{
        path := path
        title := none, author := none, year := none, published := none
        url := none, doi := none, abstract := none, tag := none
        reading_state := some defaultReadingState
        favorite := false, to_read := false
        added_at := ts
        last_opened_at := ts }])

/-- `UPDATE metadata SET path = <upd>(path) WHERE <cond>(path)` as SQLite
executes it: rows are visited in rowid (insertion, i.e. list) order; for
each matching row the old primary-key entry is dropped and the new one
inserted, which aborts with a UNIQUE-constraint error as soon as the new
path equals any other row's current path (already-updated rows carry their
new paths, later rows still their old ones).  On abort the statement is
rolled back, so the error return leaves the stored table unchanged. -/
def updatePathScan (cond : String → Bool) (upd : String → String) :
    List Row → List Row → Except String (List Row)
  | done, [] => .ok done
  | done, r :: rest =>
    if cond r.path then
      if (done ++ rest).any (fun r2 => r2.path = upd r.path) then
        .error "UNIQUE constraint failed: metadata.path"
      else updatePathScan cond upd (done ++ [{ r with path := upd r.path }]) rest
    else updatePathScan cond upd (done ++ [r]) rest

/-- `Store.MovePath` from store.go: a plain
`UPDATE metadata SET path = ? WHERE path = ?` guarded only by the
`oldPath == newPath` no-op check. -/
def MovePath (oldPath newPath : String) (tbl : List Row) :
    Except String (List Row) :=
  if oldPath = newPath then .ok tbl
  else updatePathScan (fun p => p = oldPath) (fun _ => newPath) [] tbl

/-- Splitting a character list at every `/` (the groups of
`strings.Split(p, "/")`). -/
def splitSlashAux : List Char → List (List Char)
  | [] => [[]]
  | c :: rest =>
    let r := splitSlashAux rest
    if c = '/' then [] :: r
    else (c :: r.headD []) :: r.tail

/-- Go `strings.Split(p, "/")`. -/
def splitSlash (s : String) : List String :=
  (splitSlashAux s.toList).map String.mk

/-- Whether the path is rooted (starts with the separator). -/
def startsWithSlash (s : String) : Bool :=
  match s.toList with
  | c :: _ => c = '/'
  | [] => false

/-- Whether the path already ends with the separator. -/
def endsWithSlash (s : String) : Bool :=
  match s.toList.getLast? with
  | some c => c = '/'
  | none => false

/-- Go `filepath.Clean` for Unix paths (the single-separator algorithm:
drop empty and `.` components, let `..` pop a previous component, keep
leading `..`s of relative paths, return `.` for an empty result). -/
def goCleanPath (p : String) : String :=
  if p = "" then "." else
  let rooted := startsWithSlash p
  let out := (splitSlash p).foldl (fun acc c =>
    if c = "" ∨ c = "." then acc
    else if c = ".." then
      (if acc ≠ [] ∧ acc.getLast? ≠ some ".." then acc.dropLast
       else if rooted then acc else acc ++ [".."])
    else acc ++ [c]) []
  let body := String.intercalate "/" out
  if rooted then "/" ++ body else if body = "" then "." else body

/-- `ensureTrailingSlash` from store.go (`os.PathSeparator` is `/`). -/
def ensureTrailingSlash (path : String) : String :=
  if path = "" then "/"
  else if endsWithSlash path then path
  else path ++ "/"

/-- `normalizeDirPrefix` from store.go: clean, reject empty/`.` results,
append the trailing separator.  The error string renders `%q` as plain
double quotes. -/
def normalizeDirPrefix (path : String) : Except String String :=
  let cleaned := goCleanPath path
  if cleaned = "" ∨ cleaned = "." then
    .error ("path \"" ++ path ++ "\" must not be empty")
  else .ok (ensureTrailingSlash cleaned)

/-- `escapeLike` from store.go, on character lists: backslash, percent and
underscore are prefixed with the escape character. -/
def escapeLikeChars : List Char → List Char
  | [] => []
  | c :: rest =>
    if c = '\\' ∨ c = '%' ∨ c = '_' then '\\' :: c :: escapeLikeChars rest
    else c :: escapeLikeChars rest

/-- The character fold SQLite's default LIKE applies: ASCII upper-case
letters compare equal to their lower-case forms (`Char.toLower` is exactly
this ASCII fold). -/
def likeFold (c : Char) : Char := c.toLower

/-- SQLite `LIKE ... ESCAPE '\'`, with the default ASCII
case-insensitivity: `%` matches any run, `_` one character, the character
after the escape is matched outside the wildcard rules, everything else
compares case-folded. -/
def sqliteLike : List Char → List Char → Bool
  | [], s => s.isEmpty
  | pc :: ps, s =>
    if pc = '%' then
      s.tails.any (fun s2 => sqliteLike ps s2)
    else if pc = '_' then
      match s with
      | [] => false
      | _ :: s2 => sqliteLike ps s2
    else if pc = '\\' then
      match ps with
      | [] => false
      | pc2 :: ps2 =>
        match s with
        | [] => false
        | c :: s2 => likeFold pc2 = likeFold c && sqliteLike ps2 s2
    else
      match s with
      | [] => false
      | c :: s2 => likeFold pc = likeFold c && sqliteLike ps s2

/-- The WHERE clause of `Store.MoveTree`:
`path LIKE escapeLike(oldPrefix) || '%' ESCAPE '\'`. -/
def moveTreeMatches (oldPre : String) (path : String) : Bool :=
  sqliteLike (escapeLikeChars oldPre.toList ++ ['%']) path.toList

/-- The SET clause of `Store.MoveTree`:
`path = newPrefix || substr(path, runeCount(oldPrefix) + 1)` (SQLite
`substr` indexes characters, as does `utf8.RuneCountInString`). -/
def moveTreeRewrite (oldPre newPre : String) (path : String) : String :=
  newPre ++ String.mk (path.toList.drop oldPre.toList.length)

/-- `Store.MoveTree` from store.go: normalize both directory arguments,
no-op when equal, otherwise rewrite every row whose path LIKE-matches the
escaped old prefix, with the UPDATE's UNIQUE-constraint abort modelled by
`updatePathScan`. -/
def MoveTree (oldDir newDir : String) (tbl : List Row) :
    Except String (List Row) := do
  let oldPre ← normalizeDirPrefix oldDir
  let newPre ← normalizeDirPrefix newDir
  if oldPre = newPre then return tbl
  updatePathScan (fun p => moveTreeMatches oldPre p)
    (moveTreeRewrite oldPre newPre) [] tbl

/-- Strict byte-wise (BINARY collation) comparison of two TEXT values;
for valid UTF-8, byte order coincides with code-point order. -/
def charListLt : List Char → List Char → Bool
  | [], [] => false
  | [], _ :: _ => true
  | _ :: _, [] => false
  | a :: as, b :: bs => if a = b then charListLt as bs else decide (a < b)

/-- `LOWER(title)` on the raw (NULL-able) column: SQLite `lower()` folds
ASCII only, which is exactly `Char.toLower`; `LOWER(NULL)` is NULL. -/
def lowerKey (t : Option String) : Option (List Char) :=
  t.map (fun s => s.toList.map Char.toLower)

/-- SQL ordering on a NULL-able TEXT key: NULL sorts before every string. -/
def optCharsLt : Option (List Char) → Option (List Char) → Bool
  | none, none => false
  | none, some _ => true
  | some _, none => false
  | some a, some b => charListLt a b

/-- Non-strict byte-wise comparison (final `path` tiebreak). -/
def charListLe (a b : List Char) : Bool :=
  a = b || charListLt a b

/-- The comparator realizing
`ORDER BY last_opened_at DESC, LOWER(title), path` from
`Store.ListRecentlyOpened`. -/
def recentLE (a b : Row) : Bool :=
  if a.last_opened_at = b.last_opened_at then
    if lowerKey a.title = lowerKey b.title then
      charListLe a.path.toList b.path.toList
    else optCharsLt (lowerKey a.title) (lowerKey b.title)
  else decide (b.last_opened_at < a.last_opened_at)

/-- The row list produced by the `ListRecentlyOpened` query before
scanning: `WHERE COALESCE(last_opened_at, 0) > 0`, the ORDER BY above, and
`LIMIT ?` with a non-positive limit defaulted to 20. -/
def recentRows (limit : Int) (tbl : List Row) : List Row :=
  let lim : Int := if limit ≤ 0 then 20 else limit
  ((tbl.filter (fun r => 0 < r.last_opened_at)).mergeSort recentLE).take lim.toNat

/-- `Store.ListRecentlyOpened` from store.go. -/
def ListRecentlyOpened (limit : Int) (tbl : List Row) : List Metadata :=
  (recentRows limit tbl).map scanMetadataRow

/-
  Recently-opened materializer (`rebuildRecentlyOpenedDirectory`,
  `recentLinkName`, `buildLinkBase`, `sanitizeLinkName` from package app).

  Paths handled by the materializer are modelled as lists of components
  (`List String`): an absolute Unix path `/a/b` is `["a", "b"]`.  This makes
  `filepath.Clean` / `filepath.Join` / `filepath.Rel` component
  manipulations; string rendering of paths is irrelevant to the claims.
  `canonicalPath` (EvalSymlinks + Abs) is modelled for the
  absolute, symlink-free paths the store holds: splitting on `/` and
  cleaning.  The filesystem is a list of existing file paths (`os.Stat`
  succeeds exactly on members) plus the destination directory's symlink
  entries, each a name with a raw (absolute or relative) stored target.
-/

/-- Go `filepath.Clean` on components, folded onto an accumulator (this is
also `Clean(Join(acc, rest))` for a clean absolute `acc`): empty and `.`
components vanish, `..` pops (and is dropped at the root, as for absolute
paths). -/
def cleanCompsFrom (acc : List String) : List String → List String
  | [] => acc
  | c :: rest =>
    if c = "" ∨ c = "." then cleanCompsFrom acc rest
    else if c = ".." then cleanCompsFrom acc.dropLast rest
    else cleanCompsFrom (acc ++ [c]) rest

/-- `filepath.Clean` of an absolute path given by raw components. -/
def cleanComps (l : List String) : List String := cleanCompsFrom [] l

/-- Length of the longest common component prefix (the loop of
`filepath.Rel` that consumes equal leading elements). -/
def commonLen : List String → List String → Nat
  | a :: as, b :: bs => if a = b then commonLen as bs + 1 else 0
  | _, _ => 0

/-- Go `filepath.Rel(base, targ)` for clean absolute inputs: `..` for every
base component past the common prefix, then the rest of the target.  (Go
returns `.` when the result is empty; joining resolves both the same
way.) -/
def relComps (base targ : List String) : List String :=
  List.replicate (base.length - commonLen base targ) ".." ++ targ.drop (commonLen base targ)

/-- A symlink's stored target string: absolute or relative. -/
inductive LinkTarget where
  | abs (p : List String)
  | rel (p : List String)
deriving DecidableEq, Repr

/-- How `rebuildRecentlyOpenedDirectory` resolves an existing entry's
target: relative targets are joined onto the destination directory, then
cleaned (`filepath.Join` cleans). -/
def resolveTarget (destAbs : List String) : LinkTarget → List String
  | .abs p => cleanComps p
  | .rel p => cleanCompsFrom destAbs p

/-- `canonicalPath` from the app package, modelled for absolute paths with
no symbolic-link components (`EvalSymlinks` is the identity there and
`Abs` only cleans). -/
def canonicalComps (s : String) : List String :=
  cleanComps (splitSlash s)

/-- `sanitizeLinkName` from recent.go: trim, then replace every backslash,
slash and space with an underscore. -/
def sanitizeLinkName (value : String) : String :=
  let trimmed := trimSpace value
  if trimmed = "" then ""
  else String.mk (trimmed.toList.map (fun c =>
    if c = '\\' ∨ c = '/' ∨ c = ' ' then '_' else c))

/-- Go `filepath.Ext`: the suffix starting at the final dot of the last
path element ('.' and '/' are ASCII, so byte indexing is character
indexing). -/
def extOf (s : String) : String :=
  let rev := s.toList.reverse
  let pre := rev.takeWhile (fun c => c ≠ '/')
  match pre.findIdx? (fun c => c = '.') with
  | some i => String.mk ((rev.take (i + 1)).reverse)
  | none => ""

/-- Go `strings.TrimSuffix`. -/
def trimSuffixStr (s suf : String) : String :=
  let n := s.toList.length - suf.toList.length
  if s.toList.drop n = suf.toList then String.mk (s.toList.take n) else s

/-- `buildLinkBase` from recent.go: sanitized file stem (or `_`), replaced
by a bracketed year/title pair when a title exists, extension re-appended. -/
def buildLinkBase (baseName title year : String) : String :=
  let ext := extOf baseName
  let core0 := sanitizeLinkName (trimSuffixStr baseName ext)
  let core1 := if core0 = "" then "_" else core0
  let title1 := sanitizeLinkName title
  let year1 := sanitizeLinkName year
  let core := if title1 ≠ "" then
      "[" ++ (if year1 = "" then "-" else year1) ++ "][" ++ title1 ++ "]"
    else core1
  core ++ ext

/-- Zero-padded decimal rendering (width 2). -/
def pad2 (n : Nat) : String :=
  if n < 10 then "0" ++ toString n else toString n

/-- Zero-padded decimal rendering (width 4, as Go renders years). -/
def pad4 (n : Nat) : String :=
  if n < 10 then "000" ++ toString n
  else if n < 100 then "00" ++ toString n
  else if n < 1000 then "0" ++ toString n
  else toString n

/-- Civil date from days since the Unix epoch (standard era-based
conversion, as performed by Go's time formatting). -/
def civilFromDays (z : Nat) : Nat × Nat × Nat :=
  let z2 := z + 719468
  let era := z2 / 146097
  let doe := z2 % 146097
  let yoe := (doe - doe / 1460 + doe / 36524 - doe / 146097) / 365
  let y := yoe + era * 400
  let doy := doe - (365 * yoe + yoe / 4 - yoe / 100)
  let mp := (5 * doy + 2) / 153
  let d := doy - (153 * mp + 2) / 5 + 1
  let m := if mp < 10 then mp + 3 else mp - 9
  (if m ≤ 2 then y + 1 else y, m, d)

/-- `openedAt.UTC().Format("20060102T150405.000000000Z")` for a whole-second
time (the store returns `time.Unix(sec, 0)`, so the nanosecond field is
always zero). -/
def recentTimestamp (t : Nat) : String :=
  let days := t / 86400
  let secs := t % 86400
  let ymd := civilFromDays days
  pad4 ymd.1 ++ pad2 ymd.2.1 ++ pad2 ymd.2.2 ++ "T" ++
    pad2 (secs / 3600) ++ pad2 (secs % 3600 / 60) ++ pad2 (secs % 60) ++
    ".000000000Z"

/-- `recentLinkName` from the app package: timestamp, dash, display base. -/
def recentLinkName (baseName title year : String) (openedAt : Nat) : String :=
  recentTimestamp openedAt ++ "-" ++ buildLinkBase baseName title year

/-- Go `filepath.Base` on components (`/` for the root). -/
def baseNameOf (p : List String) : String :=
  (p.getLast?).getD "/"

/-- First-match association-list lookup (Go map read). -/
def lookupA {α : Type} : List (String × α) → String → Option α
  | [], _ => none
  | e :: rest, k => if e.1 = k then some e.2 else lookupA rest k

/-- Drop the first entry with the given key (Go `delete` on a map with
unique keys). -/
def eraseA {α : Type} (l : List (String × α)) (k : String) : List (String × α) :=
  match l with
  | [] => []
  | e :: rest => if e.1 = k then rest else e :: eraseA rest k

/-- Go map write `m[k] = v`: overwrite in place or append. -/
def insertOverwrite (l : List (String × List String)) (k : String) (v : List String) :
    List (String × List String) :=
  if l.any (fun e => e.1 = k) then
    l.map (fun e => if e.1 = k then (k, v) else e)
  else l ++ [(k, v)]

/-- One iteration of the `desired`-building loop of
`rebuildRecentlyOpenedDirectory`: skip records with an empty trimmed path
or a missing target (`os.Stat` fails off `files`), otherwise store the
link name for the canonical target (overwriting an equal name). -/
def desiredStep (files : List (List String)) (now : Nat)
    (acc : List (String × List String)) (md : Metadata) :
    List (String × List String) :=
  let t0 := trimSpace md.path
  if t0 = "" then acc
  else
    let target := canonicalComps t0
    if files.contains target then
      let openedAt := if md.last_opened_at = 0 then now else md.last_opened_at
      insertOverwrite acc (recentLinkName (baseNameOf target) md.title md.year openedAt) target
    else acc

/-- The loop over the recently-opened records. -/
def desiredLinksAux (files : List (List String)) (now : Nat) :
    List (String × List String) → List Metadata → List (String × List String)
  | acc, [] => acc
  | acc, md :: rest => desiredLinksAux files now (desiredStep files now acc md) rest

/-- The `desired` map of `rebuildRecentlyOpenedDirectory`. -/
def desiredLinks (files : List (List String)) (now : Nat) (list : List Metadata) :
    List (String × List String) :=
  desiredLinksAux files now [] list

/-- One observable filesystem mutation of the reconciliation. -/
inductive FsAction where
  | remove (name : String)
  | symlink (name : String) (target : List String)
deriving DecidableEq, Repr

/-- The name an action touches. -/
def FsAction.name : FsAction → String
  | .remove n => n
  | .symlink n _ => n

/-- The first loop of `rebuildRecentlyOpenedDirectory` (over `desired`):
keep an existing entry whose resolved target matches (deleting it from the
working copy of `existing`), otherwise remove any stale entry and create
the relative symlink.  Returns the emitted actions, the remaining
`existing` entries, and the resulting directory entries for the processed
names. -/
def createPhase (destAbs : List String) (links : List (String × LinkTarget)) :
    List (String × List String) → List (String × List String) →
    List FsAction × List (String × List String) × List (String × LinkTarget)
  | [], remaining => ([], remaining, [])
  | (name, target) :: rest, remaining =>
    match lookupA remaining name with
    | some et =>
      if et = target then
        let r := createPhase destAbs links rest (eraseA remaining name)
        (r.1, r.2.1, (name, (lookupA links name).getD (.rel (relComps destAbs target))) :: r.2.2)
      else
        let r := createPhase destAbs links rest remaining
        (.remove name :: .symlink name (relComps destAbs target) :: r.1, r.2.1,
          (name, .rel (relComps destAbs target)) :: r.2.2)
    | none =>
      let r := createPhase destAbs links rest remaining
      (.remove name :: .symlink name (relComps destAbs target) :: r.1, r.2.1,
        (name, .rel (relComps destAbs target)) :: r.2.2)

/-- The second loop: remove every leftover existing entry whose name is not
a desired name. -/
def removePhase (desired : List (String × List String))
    (remaining : List (String × List String)) : List FsAction :=
  (remaining.filter (fun e => lookupA desired e.1 = none)).map (fun e => .remove e.1)

/-- `rebuildRecentlyOpenedDirectory` from the app package, over the
abstract filesystem: resolve the existing entries, compute the desired
map from the recently-opened records, then diff.  Returns the emitted
mutations and the directory's symlink entries afterwards. -/
def rebuildRecentlyOpenedDir (destAbs : List String) (files : List (List String))
    (links : List (String × LinkTarget)) (list : List Metadata) (now : Nat) :
    List FsAction × List (String × LinkTarget) :=
  let existing := links.map (fun e => (e.1, resolveTarget destAbs e.2))
  let desired := desiredLinks files now list
  let r := createPhase destAbs links desired existing
  (r.1 ++ removePhase desired r.2.1, r.2.2)

/-- A component list is clean: produced by `filepath.Clean` on an absolute
path, so no empty, `.` or `..` components. -/
def CleanL (l : List String) : Prop :=
  ∀ c ∈ l, c ≠ "" ∧ c ≠ "." ∧ c ≠ ".."

/-- The link name `rebuildRecentlyOpenedDirectory` derives for a record. -/
def linkNameOf (now : Nat) (md : Metadata) : String :=
  recentLinkName (baseNameOf (canonicalComps (trimSpace md.path))) md.title md.year
    (if md.last_opened_at = 0 then now else md.last_opened_at)

/-- A metadata record with every field at its zero value. -/
def blankMeta : Metadata where
  path := ""
  title := ""
  author := ""
  year := ""
  published := ""
  url := ""
  doi := ""
  abstract := ""
  tag := ""
  favorite := false
  to_read := false
  reading_state := "unread"
  added_at := 0
  last_opened_at := 0

/-- A stored row with every nullable column NULL and both flags 0. -/
def blankRow : Row where
  path := ""
  title := none
  author := none
  year := none
  published := none
  url := none
  doi := none
  abstract := none
  tag := none
  reading_state := none
  favorite := false
  to_read := false
  added_at := 0
  last_opened_at := 0

/-- A record carrying a non-zero `last_opened_at`, upserted below. -/
def c1rec : Metadata :=
  { blankMeta with path := "/a/x.pdf", title := "T", added_at := 1, last_opened_at := 5 }

/-- A stored row whose path differs from `/a/b/...` only in ASCII case. -/
def c4row : Row :=
  { blankRow with path := "/A/B/x.pdf", added_at := 1 }

/-- A stored row at `/x`, target of an empty-new-path `MovePath`. -/
def c7row : Row :=
  { blankRow with path := "/x", added_at := 1 }

/-- Two distinct records sharing base name and last-opened second. -/
def c6md1 : Metadata :=
  { blankMeta with path := "/a/x.pdf", last_opened_at := 1000 }

/-- Second record of the colliding pair. -/
def c6md2 : Metadata :=
  { blankMeta with path := "/b/x.pdf", last_opened_at := 1000 }

/-- Both colliding targets exist on disk. -/
def c6files : List (List String) := [["a", "x.pdf"], ["b", "x.pdf"]]

/-- A stored row for the claim witnesses, opened at time 1000. -/
def wrow1 : Row :=
  { blankRow with path := "/lib/a.pdf", added_at := 7, last_opened_at := 1000 }

/-- A second witness row, opened later. -/
def wrow2 : Row :=
  { blankRow with
      path := "/lib/b.pdf"
      title := some "B"
      added_at := 8
      last_opened_at := 2000 }

/-- A small concrete table for the claim witnesses. -/
def wtbl : List Row := [wrow1, wrow2]

/-- A record list for the materializer witnesses. -/
def w5list : List Metadata :=
  [{ blankMeta with path := "/lib/b.pdf", last_opened_at := 2000 },
   { blankMeta with path := "/lib/a.pdf", last_opened_at := 1000 }]

/-- The corresponding on-disk files. -/
def w5files : List (List String) := [["lib", "a.pdf"], ["lib", "b.pdf"]]

theorem charListLt_irrefl : ∀ l : List Char, charListLt l l = false := by
  intro l
  induction l with
  | nil => rfl
  | cons a as ih => simp [charListLt, ih]

theorem charListLt_trans : ∀ {a b c : List Char},
    charListLt a b = true → charListLt b c = true → charListLt a c = true := by
  intro a
  induction a with
  | nil =>
    intro b c hab hbc
    cases b with
    | nil => simp [charListLt] at hab
    | cons y bs =>
      cases c with
      | nil => simp [charListLt] at hbc
      | cons z cs => simp [charListLt]
  | cons x as ih =>
    intro b c hab hbc
    cases b with
    | nil => simp [charListLt] at hab
    | cons y bs =>
      cases c with
      | nil => simp [charListLt] at hbc
      | cons z cs =>
        simp only [charListLt] at hab hbc ⊢
        by_cases hxy : x = y
        · subst hxy
          simp only [if_pos rfl] at hab
          by_cases hyz : x = z
          · subst hyz
            simp only [if_pos rfl] at hbc ⊢
            exact ih hab hbc
          · simpa [hyz] using hbc
        · simp only [if_neg hxy] at hab
          by_cases hyz : y = z
          · subst hyz
            simpa [hxy] using hab
          · simp only [if_neg hyz] at hbc
            have hab' : x < y := of_decide_eq_true hab
            have hbc' : y < z := of_decide_eq_true hbc
            have hxz : x < z := lt_trans hab' hbc'
            have : x ≠ z := ne_of_lt hxz
            simp [this, hxz]

theorem charListLt_connex : ∀ a b : List Char,
    a ≠ b → charListLt a b = true ∨ charListLt b a = true := by
  intro a
  induction a with
  | nil =>
    intro b hne
    cases b with
    | nil => exact absurd rfl hne
    | cons y bs => left; rfl
  | cons x as ih =>
    intro b hne
    cases b with
    | nil => right; rfl
    | cons y bs =>
      by_cases hxy : x = y
      · subst hxy
        have hne' : as ≠ bs := by
          intro h; exact hne (by rw [h])
        rcases ih bs hne' with h | h
        · left; simpa [charListLt] using h
        · right; simpa [charListLt] using h
      · rcases lt_or_gt_of_ne hxy with h | h
        · left; simp [charListLt, hxy, h]
        · right
          have hyx : y ≠ x := fun hyx => hxy hyx.symm
          simp [charListLt, hyx, h]

theorem optCharsLt_trans : ∀ {a b c : Option (List Char)},
    optCharsLt a b = true → optCharsLt b c = true → optCharsLt a c = true := by
  intro a b c hab hbc
  cases a <;> cases b <;> cases c <;> simp_all [optCharsLt]
  exact charListLt_trans hab hbc

theorem optCharsLt_connex : ∀ a b : Option (List Char),
    a ≠ b → optCharsLt a b = true ∨ optCharsLt b a = true := by
  intro a b hne
  cases a with
  | none =>
    cases b with
    | none => exact absurd rfl hne
    | some bl => left; rfl
  | some al =>
    cases b with
    | none => right; rfl
    | some bl =>
      have : al ≠ bl := by
        intro h; exact hne (by rw [h])
      simpa [optCharsLt] using charListLt_connex al bl this

theorem optCharsLt_asymm : ∀ {a b : Option (List Char)},
    optCharsLt a b = true → optCharsLt b a = true → False := by
  intro a b hab hba
  have h := optCharsLt_trans hab hba
  cases a with
  | none => simp [optCharsLt] at h
  | some al => simp [optCharsLt, charListLt_irrefl] at h

theorem charListLt_asymm : ∀ {a b : List Char},
    charListLt a b = true → charListLt b a = true → False := by
  intro a b hab hba
  have h := charListLt_trans hab hba
  simp [charListLt_irrefl] at h

theorem charListLe_trans : ∀ {a b c : List Char},
    charListLe a b = true → charListLe b c = true → charListLe a c = true := by
  intro a b c hab hbc
  rcases Bool.or_eq_true_iff.mp hab with he | hl
  · have he' : a = b := of_decide_eq_true he
    rw [charListLe, he']
    exact hbc
  · rcases Bool.or_eq_true_iff.mp hbc with he2 | hl2
    · have he2' : b = c := of_decide_eq_true he2
      rw [charListLe, ← he2']
      exact Bool.or_eq_true_iff.mpr (Or.inr hl)
    · exact Bool.or_eq_true_iff.mpr (Or.inr (charListLt_trans hl hl2))

theorem charListLe_total : ∀ a b : List Char,
    (charListLe a b || charListLe b a) = true := by
  intro a b
  by_cases he : a = b
  · subst he
    simp [charListLe]
  · rcases charListLt_connex a b he with h | h
    · simp [charListLe, h]
    · simp [charListLe, h]

theorem recentLE_trans : ∀ a b c : Row,
    recentLE a b = true → recentLE b c = true → recentLE a c = true := by
  intro a b c hab hbc
  unfold recentLE at hab hbc ⊢
  by_cases h1 : a.last_opened_at = b.last_opened_at
  · by_cases h2 : b.last_opened_at = c.last_opened_at
    · have h3 : a.last_opened_at = c.last_opened_at := h1.trans h2
      simp only [if_pos h1] at hab
      simp only [if_pos h2] at hbc
      simp only [if_pos h3]
      by_cases k1 : lowerKey a.title = lowerKey b.title
      · by_cases k2 : lowerKey b.title = lowerKey c.title
        · have k3 : lowerKey a.title = lowerKey c.title := k1.trans k2
          simp only [if_pos k1] at hab
          simp only [if_pos k2] at hbc
          simp only [if_pos k3]
          exact charListLe_trans hab hbc
        · have k3 : lowerKey a.title ≠ lowerKey c.title := by
            rw [k1]; exact k2
          simp only [if_neg k2] at hbc
          simp only [if_neg k3]
          rw [k1]; exact hbc
      · by_cases k2 : lowerKey b.title = lowerKey c.title
        · have k3 : lowerKey a.title ≠ lowerKey c.title := by
            rw [← k2]; exact k1
          simp only [if_neg k1] at hab
          simp only [if_neg k3]
          rw [← k2]; exact hab
        · simp only [if_neg k1] at hab
          simp only [if_neg k2] at hbc
          have k3 : lowerKey a.title ≠ lowerKey c.title := by
            intro h
            rw [h] at hab
            exact optCharsLt_asymm hab hbc
          simp only [if_neg k3]
          exact optCharsLt_trans hab hbc
    · have hbc' : c.last_opened_at < b.last_opened_at := by
        simp only [if_neg h2] at hbc
        exact of_decide_eq_true hbc
      have h3 : a.last_opened_at ≠ c.last_opened_at := by omega
      simp only [if_neg h3]
      exact decide_eq_true (by omega)
  · by_cases h2 : b.last_opened_at = c.last_opened_at
    · have h3 : a.last_opened_at ≠ c.last_opened_at := by rw [← h2]; exact h1
      simp only [if_neg h1] at hab
      simp only [if_neg h3]
      rw [← h2]; exact hab
    · simp only [if_neg h1] at hab
      simp only [if_neg h2] at hbc
      have hab' : b.last_opened_at < a.last_opened_at := of_decide_eq_true hab
      have hbc' : c.last_opened_at < b.last_opened_at := of_decide_eq_true hbc
      have h3 : a.last_opened_at ≠ c.last_opened_at := by omega
      simp only [if_neg h3]
      exact decide_eq_true (by omega)

theorem recentLE_total : ∀ a b : Row, (recentLE a b || recentLE b a) = true := by
  intro a b
  unfold recentLE
  by_cases h1 : a.last_opened_at = b.last_opened_at
  · simp only [if_pos h1, if_pos h1.symm]
    by_cases k1 : lowerKey a.title = lowerKey b.title
    · simp only [if_pos k1, if_pos k1.symm]
      exact charListLe_total _ _
    · have k1' : lowerKey b.title ≠ lowerKey a.title := fun h => k1 h.symm
      simp only [if_neg k1, if_neg k1']
      rcases optCharsLt_connex _ _ k1 with h | h <;> simp [h]
  · have h1' : b.last_opened_at ≠ a.last_opened_at := fun h => h1 h.symm
    simp only [if_neg h1, if_neg h1']
    rcases Nat.lt_or_ge a.last_opened_at b.last_opened_at with h | h
    · simp [h]
    · have : b.last_opened_at < a.last_opened_at := by omega
      simp [this]

section StoreLemmas

theorem findRow_map_pathPreserving (p : String) (g : Row → Row)
    (hg : ∀ r, (g r).path = r.path) (tbl : List Row) :
    findRow p (tbl.map g) = (findRow p tbl).map g := by
  unfold findRow
  rw [List.find?_map]
  have : ((fun r : Row => decide (r.path = p)) ∘ g) = (fun r : Row => decide (r.path = p)) := by
    funext r
    simp [Function.comp, hg]
  rw [this]

theorem findRow_append (p : String) (t1 t2 : List Row) :
    findRow p (t1 ++ t2) = (findRow p t1).or (findRow p t2) := by
  unfold findRow
  exact List.find?_append

theorem findRow_eq_none_of_any_false (p : String) (tbl : List Row)
    (h : tbl.any (fun r => r.path = p) = false) : findRow p tbl = none := by
  unfold findRow
  rw [List.find?_eq_none]
  intro r hr hpr
  have : tbl.any (fun r => r.path = p) = true :=
    List.any_eq_true.mpr ⟨r, hr, hpr⟩
  rw [this] at h
  exact Bool.noConfusion h

theorem findRow_isSome_of_any_true (p : String) (tbl : List Row)
    (h : tbl.any (fun r => r.path = p) = true) : (findRow p tbl).isSome = true := by
  unfold findRow
  rw [List.find?_isSome]
  exact List.any_eq_true.mp h

theorem findRow_path (p : String) (tbl : List Row) {r : Row}
    (h : findRow p tbl = some r) : r.path = p := by
  have := List.find?_some h
  exact of_decide_eq_true this

/-- What `Upsert` leaves under the upserted key: the merged row when one
existed, the fresh insert row otherwise. -/
theorem findRow_Upsert_self (now : Nat) (m : Metadata) (tbl : List Row) :
    findRow m.path (Upsert now m tbl) =
      some (match findRow m.path tbl with
            | some r => upsertUpdateRow now m r
            | none => upsertInsertRow now m) := by
  unfold Upsert
  by_cases h : tbl.any (fun r => r.path = m.path) = true
  · rw [if_pos h]
    have hg : ∀ r : Row, ((fun r => if r.path = m.path then upsertUpdateRow now m r else r) r).path = r.path := by
      intro r
      by_cases hr : r.path = m.path
      · simp [hr, upsertUpdateRow]
      · simp [hr]
    rw [findRow_map_pathPreserving _ _ hg]
    have hs := findRow_isSome_of_any_true m.path tbl h
    rcases Option.isSome_iff_exists.mp hs with ⟨r, hr⟩
    rw [hr]
    have hpath : r.path = m.path := findRow_path m.path tbl hr
    simp [hpath]
  · have h' : tbl.any (fun r => r.path = m.path) = false := by
      simpa using h
    rw [if_neg h]
    rw [findRow_append]
    rw [findRow_eq_none_of_any_false _ _ h']
    simp [findRow, upsertInsertRow]

/-- `Upsert` does not touch rows stored under other paths. -/
theorem findRow_Upsert_other (now : Nat) (m : Metadata) (tbl : List Row)
    (p : String) (hne : p ≠ m.path) :
    findRow p (Upsert now m tbl) = findRow p tbl := by
  unfold Upsert
  by_cases h : tbl.any (fun r => r.path = m.path) = true
  · rw [if_pos h]
    have hg : ∀ r : Row, ((fun r => if r.path = m.path then upsertUpdateRow now m r else r) r).path = r.path := by
      intro r
      by_cases hr : r.path = m.path
      · simp [hr, upsertUpdateRow]
      · simp [hr]
    rw [findRow_map_pathPreserving _ _ hg]
    cases hf : findRow p tbl with
    | none => rfl
    | some r =>
      have hpath : r.path = p := findRow_path p tbl hf
      have : ¬(r.path = m.path) := by rw [hpath]; exact hne
      simp [this]
  · rw [if_neg h]
    rw [findRow_append]
    cases hf : findRow p tbl with
    | none =>
      simp only [Option.none_or]
      unfold findRow
      rw [List.find?_cons_of_neg]
      · rfl
      · simp only [upsertInsertRow, decide_eq_true_eq]
        exact fun hc => hne hc.symm
    | some r => rfl

/-- What `RecordOpened` leaves under its key, when the path is non-empty
after trimming. -/
theorem findRow_RecordOpened_self (now : Nat) (path : String) (openedAt : Nat)
    (tbl : List Row) (tbl2 : List Row)
    (hok : RecordOpened now path openedAt tbl = .ok tbl2) :
    findRow path tbl2 =
      some (match findRow path tbl with
            | some r =>
              { r with
                last_opened_at := if openedAt = 0 then now else openedAt
                added_at := if r.added_at = 0 then (if openedAt = 0 then now else openedAt)
                            else r.added_at }
            | none =>
              { path := path
                title := none, author := none, year := none, published := none
                url := none, doi := none, abstract := none, tag := none
                reading_state := some defaultReadingState
                favorite := false, to_read := false
                added_at := if openedAt = 0 then now else openedAt
                last_opened_at := if openedAt = 0 then now else openedAt }) := by
  unfold RecordOpened at hok
  by_cases hp : trimSpace path = ""
  · rw [if_pos hp] at hok
    exact absurd hok (by simp)
  · rw [if_neg hp] at hok
    by_cases h : tbl.any (fun r => r.path = path) = true
    · simp only [if_pos h] at hok
      have hok' := hok
      injection hok' with htbl
      subst htbl
      have hg : ∀ r : Row,
          ((fun r => if r.path = path then
            { r with
              last_opened_at := if openedAt = 0 then now else openedAt
              added_at := if r.added_at = 0 then (if openedAt = 0 then now else openedAt)
                          else r.added_at } else r) r).path = r.path := by
        intro r
        by_cases hr : r.path = path
        · simp [hr]
        · simp [hr]
      rw [findRow_map_pathPreserving _ _ hg]
      have hs := findRow_isSome_of_any_true path tbl h
      rcases Option.isSome_iff_exists.mp hs with ⟨r, hr⟩
      rw [hr]
      have hpath : r.path = path := findRow_path path tbl hr
      simp [hpath]
    · have h' : tbl.any (fun r => r.path = path) = false := by simpa using h
      simp only [if_neg h] at hok
      have hok' := hok
      injection hok' with htbl
      subst htbl
      rw [findRow_append, findRow_eq_none_of_any_false _ _ h']
      simp [findRow]

/-- `RecordOpened` does not touch rows stored under other paths. -/
theorem findRow_RecordOpened_other (now : Nat) (path : String) (openedAt : Nat)
    (tbl : List Row) (tbl2 : List Row)
    (hok : RecordOpened now path openedAt tbl = .ok tbl2)
    (p : String) (hne : p ≠ path) :
    findRow p tbl2 = findRow p tbl := by
  unfold RecordOpened at hok
  by_cases hp : trimSpace path = ""
  · rw [if_pos hp] at hok
    exact absurd hok (by simp)
  · rw [if_neg hp] at hok
    by_cases h : tbl.any (fun r => r.path = path) = true
    · simp only [if_pos h] at hok
      injection hok with htbl
      subst htbl
      have hg : ∀ r : Row,
          ((fun r => if r.path = path then
            { r with
              last_opened_at := if openedAt = 0 then now else openedAt
              added_at := if r.added_at = 0 then (if openedAt = 0 then now else openedAt)
                          else r.added_at } else r) r).path = r.path := by
        intro r
        by_cases hr : r.path = path
        · simp [hr]
        · simp [hr]
      rw [findRow_map_pathPreserving _ _ hg]
      cases hf : findRow p tbl with
      | none => rfl
      | some r =>
        have hpath : r.path = p := findRow_path p tbl hf
        have : ¬(r.path = path) := by rw [hpath]; exact hne
        simp [this]
    · simp only [if_neg h] at hok
      injection hok with htbl
      subst htbl
      rw [findRow_append]
      cases hf : findRow p tbl with
      | none =>
        simp only [Option.none_or]
        unfold findRow
        rw [List.find?_cons_of_neg]
        · rfl
        · simp only [decide_eq_true_eq]
          exact fun hc => hne hc.symm
      | some r => rfl

end StoreLemmas

section ScanLemmas

/-- A successful path-updating scan never changes any row's
`last_opened_at` (it rewrites paths only, in place). -/
theorem updatePathScan_last (cond : String → Bool) (upd : String → String) :
    ∀ (rem done out : List Row),
    updatePathScan cond upd done rem = .ok out →
    out.map (fun r => r.last_opened_at) =
      (done ++ rem).map (fun r => r.last_opened_at) := by
  intro rem
  induction rem with
  | nil =>
    intro done out h
    rw [updatePathScan] at h
    injection h with h
    rw [← h]
    simp
  | cons r rest ih =>
    intro done out h
    rw [updatePathScan] at h
    by_cases hc : cond r.path = true
    · rw [if_pos hc] at h
      by_cases hcol : ((done ++ rest).any (fun r2 => r2.path = upd r.path)) = true
      · rw [if_pos hcol] at h
        exact absurd h (by simp)
      · rw [if_neg hcol] at h
        have := ih (done ++ [{ r with path := upd r.path }]) out h
        rw [this]
        simp
    · rw [if_neg hc] at h
      have := ih (done ++ [r]) out h
      rw [this]
      simp

/-- A scan whose WHERE clause matches no remaining row is the identity. -/
theorem updatePathScan_nomatch (cond : String → Bool) (upd : String → String) :
    ∀ (rem done : List Row),
    (∀ r ∈ rem, cond r.path = false) →
    updatePathScan cond upd done rem = .ok (done ++ rem) := by
  intro rem
  induction rem with
  | nil =>
    intro done _
    rw [updatePathScan]
    simp
  | cons r rest ih =>
    intro done hall
    rw [updatePathScan]
    rw [if_neg (by rw [hall r (List.mem_cons_self r rest)]; simp)]
    rw [ih (done ++ [r]) (fun r2 h2 => hall r2 (List.mem_cons_of_mem r h2))]
    simp

/-- When no rewritten path collides with any other row's old or new path,
the scan succeeds and performs exactly the per-row rewrite. -/
theorem updatePathScan_ok (cond : String → Bool) (upd : String → String) :
    ∀ (rem done : List Row),
    (∀ r ∈ rem, cond r.path = true → ∀ r2 ∈ done, upd r.path ≠ r2.path) →
    (∀ r ∈ rem, cond r.path = true → ∀ r2 ∈ rem, r2.path ≠ r.path →
      upd r.path ≠ r2.path) →
    (∀ r ∈ rem, cond r.path = true → ∀ r2 ∈ rem, r2.path ≠ r.path →
      cond r2.path = true → upd r.path ≠ upd r2.path) →
    ((rem.map (fun r => r.path)).Nodup) →
    updatePathScan cond upd done rem =
      .ok (done ++ rem.map (fun r =>
        if cond r.path then { r with path := upd r.path } else r)) := by
  intro rem
  induction rem with
  | nil =>
    intro done _ _ _ _
    rw [updatePathScan]
    simp
  | cons r rest ih =>
    intro done h1 h2 h3 hnd
    rw [List.map_cons, List.nodup_cons] at hnd
    have hrmem : r ∈ r :: rest := List.mem_cons_self r rest
    have hpath_ne : ∀ r2 ∈ rest, r2.path ≠ r.path := by
      intro r2 h2m hc
      exact hnd.1 (by rw [← hc]; exact List.mem_map_of_mem (fun r => r.path) h2m)
    rw [updatePathScan]
    by_cases hc : cond r.path = true
    · rw [if_pos hc]
      have hcol : ((done ++ rest).any (fun r2 => r2.path = upd r.path)) = false := by
        rw [List.any_eq_false]
        intro r2 h2m
        simp only [decide_eq_true_eq]
        rcases List.mem_append.mp h2m with hm | hm
        · exact fun hcc => h1 r hrmem hc r2 hm hcc.symm
        · exact fun hcc =>
            h2 r hrmem hc r2 (List.mem_cons_of_mem r hm) (hpath_ne r2 hm) hcc.symm
      rw [if_neg (by rw [hcol]; simp)]
      rw [ih (done ++ [({ r with path := upd r.path } : Row)]) ?_ ?_ ?_ hnd.2]
      · rw [List.map_cons, if_pos hc]
        simp
      · intro r3 h3m hc3 r2 h2m
        rcases List.mem_append.mp h2m with hm | hm
        · exact h1 r3 (List.mem_cons_of_mem r h3m) hc3 r2 hm
        · rw [List.mem_singleton.mp hm]
          show upd r3.path ≠ upd r.path
          exact h3 r3 (List.mem_cons_of_mem r h3m) hc3 r hrmem
            (fun hcc => (hpath_ne r3 h3m) hcc.symm) hc
      · intro r3 h3m hc3 r2 h2m hne2
        exact h2 r3 (List.mem_cons_of_mem r h3m) hc3 r2
          (List.mem_cons_of_mem r h2m) hne2
      · intro r3 h3m hc3 r2 h2m hne2 hc2
        exact h3 r3 (List.mem_cons_of_mem r h3m) hc3 r2
          (List.mem_cons_of_mem r h2m) hne2 hc2
    · rw [if_neg hc]
      rw [ih (done ++ [r]) ?_ ?_ ?_ hnd.2]
      · rw [List.map_cons, if_neg hc]
        simp
      · intro r3 h3m hc3 r2 h2m
        rcases List.mem_append.mp h2m with hm | hm
        · exact h1 r3 (List.mem_cons_of_mem r h3m) hc3 r2 hm
        · rw [List.mem_singleton.mp hm]
          exact h2 r3 (List.mem_cons_of_mem r h3m) hc3 r hrmem
            (fun hcc => (hpath_ne r3 h3m) hcc.symm)
      · intro r3 h3m hc3 r2 h2m hne2
        exact h2 r3 (List.mem_cons_of_mem r h3m) hc3 r2
          (List.mem_cons_of_mem r h2m) hne2
      · intro r3 h3m hc3 r2 h2m hne2 hc2
        exact h3 r3 (List.mem_cons_of_mem r h3m) hc3 r2
          (List.mem_cons_of_mem r h2m) hne2 hc2

end ScanLemmas

section ReadingState

theorem normalizeReadingState_mem (x : String) :
    normalizeReadingState x = "unread" ∨ normalizeReadingState x = "reading" ∨
      normalizeReadingState x = "read" := by
  simp only [normalizeReadingState, defaultReadingState]
  split
  · right; left; rfl
  · split
    · right; right; rfl
    · left; rfl

theorem normalizeReadingState_unread :
    normalizeReadingState "unread" = "unread" := by decide

theorem normalizeReadingState_reading :
    normalizeReadingState "reading" = "reading" := by decide

theorem normalizeReadingState_read :
    normalizeReadingState "read" = "read" := by decide

theorem normalizeReadingState_idem (x : String) :
    normalizeReadingState (normalizeReadingState x) = normalizeReadingState x := by
  rcases normalizeReadingState_mem x with h | h | h <;> rw [h]
  · exact normalizeReadingState_unread
  · exact normalizeReadingState_reading
  · exact normalizeReadingState_read

theorem normalizeReadingState_fixed (x : String)
    (h : x = "unread" ∨ x = "reading" ∨ x = "read") :
    normalizeReadingState x = x := by
  rcases h with h | h | h <;> subst h
  · exact normalizeReadingState_unread
  · exact normalizeReadingState_reading
  · exact normalizeReadingState_read

/-- Claim C9: after any store read or write the reading state is one of
"unread", "reading", "read"; the normalization function is idempotent and
collapses "", "bogus" and "UNREAD" (and every other unrecognized value) to
"unread"; the write path stores the normalized value. -/
theorem claim_C9 :
    (∀ x : String,
      normalizeReadingState (normalizeReadingState x) = normalizeReadingState x) ∧
    normalizeReadingState "" = "unread" ∧
    normalizeReadingState "bogus" = "unread" ∧
    normalizeReadingState "UNREAD" = "unread" ∧
    (∀ (tbl : List Row) (p : String) (m : Metadata), Get p tbl = some m →
      m.reading_state = "unread" ∨ m.reading_state = "reading" ∨
        m.reading_state = "read") ∧
    (∀ (now : Nat) (m : Metadata) (r : Row) (tbl : List Row),
      findRow m.path (Upsert now m tbl) = some r →
      r.reading_state = some (normalizeReadingState m.reading_state)) := by
  refine ⟨normalizeReadingState_idem, by decide, by decide, by decide, ?_, ?_⟩
  · intro tbl p m hm
    rcases Option.map_eq_some'.mp hm with ⟨r, _, hsc⟩
    rw [← hsc]
    exact normalizeReadingState_mem _
  · intro now m r tbl hr
    rw [findRow_Upsert_self] at hr
    cases hf : findRow m.path tbl with
    | some r0 =>
      rw [hf] at hr
      injection hr with hr
      rw [← hr]
      rfl
    | none =>
      rw [hf] at hr
      injection hr with hr
      rw [← hr]
      rfl

/-- Witness of claim C9 at concrete inputs. -/
theorem claim_C9_witness :
    normalizeReadingState (normalizeReadingState "BOGUS") =
      normalizeReadingState "BOGUS" :=
  claim_C9.1 "BOGUS"

end ReadingState

section AddedAt

/-- Claim C2: once a path's stored `added_at` is a non-zero `t0`, any
subsequent `Upsert` of that path (whatever the incoming `added_at`) and any
subsequent `RecordOpened` of that path leave the stored `added_at` at
`t0`. -/
theorem claim_C2 (tbl : List Row) (p : String) (r : Row) (t0 : Nat)
    (hfind : findRow p tbl = some r) (ht0 : r.added_at = t0) (hnz : t0 ≠ 0) :
    (∀ (now : Nat) (m : Metadata), m.path = p →
      (findRow p (Upsert now m tbl)).map (fun r2 => r2.added_at) = some t0) ∧
    (∀ (now openedAt : Nat) (tbl2 : List Row),
      RecordOpened now p openedAt tbl = .ok tbl2 →
      (findRow p tbl2).map (fun r2 => r2.added_at) = some t0) := by
  constructor
  · intro now m hmp
    subst hmp
    rw [findRow_Upsert_self, hfind]
    simp only [Option.map_some, upsertUpdateRow, ht0, if_neg hnz]
    rfl
  · intro now openedAt tbl2 hok
    rw [findRow_RecordOpened_self now p openedAt tbl tbl2 hok, hfind]
    simp only [Option.map_some, ht0, if_neg hnz]
    rfl

/-- Witness of claim C2: row `/lib/a.pdf` holds `added_at = 7`, which an
upsert of fresh metadata and a later open both preserve. -/
theorem claim_C2_witness :
    (findRow "/lib/a.pdf"
        (Upsert 99 { blankMeta with path := "/lib/a.pdf" } wtbl)).map
      (fun r2 => r2.added_at) = some 7 :=
  (claim_C2 wtbl "/lib/a.pdf" wrow1 7 (by decide) (by decide)
    (by decide)).1 99 { blankMeta with path := "/lib/a.pdf" } rfl

end AddedAt

section RecordOpenedClaims

/-- Claim C3: `RecordOpened(path, t)` on an absent path creates a record
with the default reading state, empty bibliographic fields, clear flags and
both timestamps `t`; on a present path it rewrites only `last_opened_at`
(backfilling a zero `added_at`) and leaves every other field of the record
unchanged. -/
theorem claim_C3 (now : Nat) (path : String) (t : Nat)
    (tbl tbl2 : List Row) (ht : t ≠ 0)
    (hok : RecordOpened now path t tbl = .ok tbl2) :
    (findRow path tbl = none →
      Get path tbl2 = some
        { path := path, title := "", author := "", year := "", published := ""
          url := "", doi := "", abstract := "", tag := ""
          favorite := false, to_read := false
          reading_state := defaultReadingState
          added_at := t, last_opened_at := t }) ∧
    (∀ r : Row, findRow path tbl = some r →
      Get path tbl2 = some
        { scanMetadataRow r with
            last_opened_at := t
            added_at := if r.added_at = 0 then t else r.added_at }) := by
  have hself := findRow_RecordOpened_self now path t tbl tbl2 hok
  constructor
  · intro hnone
    rw [hnone] at hself
    unfold Get
    rw [hself]
    simp only [Option.map_some]
    simp [scanMetadataRow, ht, defaultReadingState, normalizeReadingState_unread]
  · intro r hr
    rw [hr] at hself
    unfold Get
    rw [hself]
    simp only [Option.map_some, if_neg ht]
    simp [scanMetadataRow]

/-- Witness of claim C3 at a concrete open of a present path. -/
theorem claim_C3_witness :
    Get "/lib/a.pdf" [{ wrow1 with last_opened_at := 3000 }, wrow2] = some
      { scanMetadataRow wrow1 with last_opened_at := 3000, added_at := 7 } := by
  have h := (claim_C3 0 "/lib/a.pdf" 3000 wtbl
      [{ wrow1 with last_opened_at := 3000 }, wrow2]
      (by decide) rfl).2 wrow1 rfl
  rw [h]
  decide

end RecordOpenedClaims

section UpsertFrame

/-- Claim C10: `Upsert` never writes `last_opened_at` — an upsert over an
existing row keeps the stored value, a row first created by `Upsert`
carries `0` (never opened) — and the two path-remapping operations keep
every row's `last_opened_at` as well, so within the store's write
operations only `RecordOpened` sets it. -/
theorem claim_C10 :
    (∀ (now : Nat) (m : Metadata) (tbl : List Row) (p : String) (r r2 : Row),
      findRow p tbl = some r → findRow p (Upsert now m tbl) = some r2 →
      r2.last_opened_at = r.last_opened_at) ∧
    (∀ (now : Nat) (m : Metadata) (tbl : List Row),
      findRow m.path tbl = none →
      (findRow m.path (Upsert now m tbl)).map (fun r => r.last_opened_at) =
        some 0) ∧
    (∀ (oldPath newPath : String) (tbl tbl2 : List Row),
      MovePath oldPath newPath tbl = .ok tbl2 →
      tbl2.map (fun r => r.last_opened_at) = tbl.map (fun r => r.last_opened_at)) ∧
    (∀ (oldDir newDir : String) (tbl tbl2 : List Row),
      MoveTree oldDir newDir tbl = .ok tbl2 →
      tbl2.map (fun r => r.last_opened_at) = tbl.map (fun r => r.last_opened_at)) := by
  refine ⟨?_, ?_, ?_, ?_⟩
  · intro now m tbl p r r2 hr hr2
    by_cases hp : p = m.path
    · subst hp
      rw [findRow_Upsert_self, hr] at hr2
      injection hr2 with hr2
      rw [← hr2]
      rfl
    · rw [findRow_Upsert_other now m tbl p hp, hr] at hr2
      injection hr2 with hr2
      rw [hr2]
  · intro now m tbl hnone
    rw [findRow_Upsert_self, hnone]
    rfl
  · intro oldPath newPath tbl tbl2 hok
    unfold MovePath at hok
    by_cases he : oldPath = newPath
    · rw [if_pos he] at hok
      injection hok with hok
      rw [← hok]
    · rw [if_neg he] at hok
      have := updatePathScan_last (fun p => p = oldPath) (fun _ => newPath)
        tbl [] tbl2 hok
      simpa using this
  · intro oldDir newDir tbl tbl2 hok
    unfold MoveTree at hok
    cases h1 : normalizeDirPrefix oldDir with
    | error e => rw [h1] at hok; exact absurd hok (by simp [Bind.bind, Except.bind])
    | ok oldPre =>
      cases h2 : normalizeDirPrefix newDir with
      | error e => rw [h1, h2] at hok; exact absurd hok (by simp [Bind.bind, Except.bind])
      | ok newPre =>
        rw [h1, h2] at hok
        simp only [Bind.bind, Except.bind] at hok
        by_cases he : oldPre = newPre
        · rw [if_pos he] at hok
          simp only [pure, Except.pure] at hok
          injection hok with hok
          rw [← hok]
        · rw [if_neg he] at hok
          have := updatePathScan_last (fun p => moveTreeMatches oldPre p)
            (moveTreeRewrite oldPre newPre) tbl [] tbl2 hok
          simpa using this

/-- Witness of claim C10: a row created by `Upsert` alone has
`last_opened_at = 0`. -/
theorem claim_C10_witness :
    (findRow c1rec.path (Upsert 100 c1rec [])).map (fun r => r.last_opened_at) =
      some 0 :=
  claim_C10.2.1 100 c1rec [] (by decide)

end UpsertFrame

section RoundTrip

/-- Counterexample to claim C1 as stated: a record carrying
`last_opened_at = 5` upserted into an empty store reads back with
`last_opened_at = 0`, so the result is not equal to the record in every
field other than `added_at`. -/
theorem claim_C1_counterexample :
    (Get c1rec.path (Upsert 100 c1rec [])).map (fun m => m.last_opened_at) =
        some 0 ∧
    c1rec.last_opened_at = 5 := by decide

/-- Claim C1, amended: for a valid record (reading state one of the three
enum values), `Upsert(R)` then `Get(R.path)` returns `R` in every field
except `added_at` — preserved when a non-zero value was stored, otherwise
the incoming value or, when that is zero, the current time — and
`last_opened_at`, which `Upsert` never writes: it stays at the previously
stored value, `0` for a newly created row. -/
theorem claim_C1 (now : Nat) (m : Metadata) (tbl : List Row)
    (hv : m.reading_state = "unread" ∨ m.reading_state = "reading" ∨
      m.reading_state = "read") :
    Get m.path (Upsert now m tbl) = some
      { m with
          added_at :=
            match findRow m.path tbl with
            | some r => if r.added_at = 0 then
                (if m.added_at = 0 then now else m.added_at) else r.added_at
            | none => if m.added_at = 0 then now else m.added_at
          last_opened_at :=
            match findRow m.path tbl with
            | some r => r.last_opened_at
            | none => 0 } := by
  have hfix := normalizeReadingState_fixed m.reading_state hv
  unfold Get
  rw [findRow_Upsert_self]
  cases hf : findRow m.path tbl with
  | some r =>
    have hrp : r.path = m.path := findRow_path m.path tbl hf
    simp only [Option.map_some]
    simp [upsertUpdateRow, scanMetadataRow, normalizeReadingState_idem, hfix, hrp]
  | none =>
    simp only [Option.map_some]
    simp [upsertInsertRow, scanMetadataRow, normalizeReadingState_idem, hfix]

/-- Witness of the amended claim C1 at a concrete record and table. -/
theorem claim_C1_witness :
    Get c1rec.path (Upsert 100 c1rec []) = some
      { c1rec with added_at := 1, last_opened_at := 0 } := by
  have h := claim_C1 100 c1rec [] (by decide)
  rw [h]
  decide

end RoundTrip

section EmptyPathClaims

/-- Counterexample to claim C7 as stated: `MovePath` performs no empty-path
validation — an empty new path is accepted without error and rewrites the
record at `/x` to the empty path, and an empty old path is likewise
accepted without error. -/
theorem claim_C7_counterexample :
    MovePath "/x" "" [c7row] = .ok [{ c7row with path := "" }] ∧
    MovePath "" "/y" [c7row] = .ok [c7row] := by
  constructor
  · rfl
  · rfl

/-- Claim C7, amended: an empty (or `.`-cleaning) directory passed to
`MoveTree` on either side is rejected synchronously with a descriptive
error before any mutation; `MovePath`, however, validates nothing — an
empty old path simply matches no stored record (no error, no rewrite). -/
theorem claim_C7 :
    (∀ (newDir : String) (tbl : List Row),
      MoveTree "" newDir tbl = .error "path \"\" must not be empty") ∧
    (∀ (oldDir : String) (tbl tbl2 : List Row),
      MoveTree oldDir "" tbl ≠ .ok tbl2) ∧
    (∀ (newPath : String) (tbl : List Row), newPath ≠ "" →
      (∀ r ∈ tbl, r.path ≠ "") →
      MovePath "" newPath tbl = .ok tbl) := by
  refine ⟨?_, ?_, ?_⟩
  · intro newDir tbl
    have h : normalizeDirPrefix "" = .error "path \"\" must not be empty" := rfl
    unfold MoveTree
    rw [h]
    rfl
  · intro oldDir tbl tbl2 hok
    unfold MoveTree at hok
    cases h1 : normalizeDirPrefix oldDir with
    | error e =>
      rw [h1] at hok
      exact absurd hok (by simp [Bind.bind, Except.bind])
    | ok oldPre =>
      rw [h1] at hok
      have h2 : normalizeDirPrefix "" = .error "path \"\" must not be empty" := rfl
      rw [h2] at hok
      exact absurd hok (by simp [Bind.bind, Except.bind])
  · intro newPath tbl hne hall
    unfold MovePath
    rw [if_neg (fun h => hne h.symm)]
    have := updatePathScan_nomatch (fun p => p = "") (fun _ => newPath) tbl []
      (fun r hr => by simp [hall r hr])
    simpa using this

/-- Witness of the amended claim C7 at concrete inputs. -/
theorem claim_C7_witness :
    MoveTree "" "/y" [c7row] = .error "path \"\" must not be empty" ∧
    MovePath "" "/y" [c7row] = .ok [c7row] :=
  ⟨claim_C7.1 "/y" [c7row],
   claim_C7.2.2 "/y" [c7row] (by decide) (by decide)⟩

end EmptyPathClaims

section MoveTreeClaims

theorem sqliteLike_nil (s : List Char) : sqliteLike [] s = s.isEmpty := by
  rw [sqliteLike.eq_def]

theorem sqliteLike_pct (ps s : List Char) :
    sqliteLike ('%' :: ps) s = s.tails.any (fun s2 => sqliteLike ps s2) := by
  rw [sqliteLike.eq_def]
  dsimp only
  rw [if_pos rfl]

theorem sqliteLike_esc (c : Char) (ps s : List Char) :
    sqliteLike ('\\' :: c :: ps) s =
      (match s with
       | [] => false
       | d :: s2 => (decide (likeFold c = likeFold d) && sqliteLike ps s2)) := by
  rw [sqliteLike.eq_def]
  dsimp only
  rw [if_neg (by decide : ¬('\\' : Char) = '%'),
    if_neg (by decide : ¬('\\' : Char) = '_'), if_pos rfl]

theorem sqliteLike_plain (c : Char) (ps s : List Char)
    (h1 : c ≠ '%') (h2 : c ≠ '_') (h3 : c ≠ '\\') :
    sqliteLike (c :: ps) s =
      (match s with
       | [] => false
       | d :: s2 => (decide (likeFold c = likeFold d) && sqliteLike ps s2)) := by
  rw [sqliteLike.eq_def]
  dsimp only
  rw [if_neg h1, if_neg h2, if_neg h3]

theorem sqliteLike_percent (s : List Char) : sqliteLike ['%'] s = true := by
  rw [sqliteLike_pct]
  rw [List.any_eq_true]
  refine ⟨[], ?_, by rw [sqliteLike_nil]; rfl⟩
  rw [List.mem_tails]
  exact List.nil_suffix

/-- The WHERE clause of `MoveTree` is a literal, ASCII-case-folded prefix
test: `escapeLike(p) || '%'` LIKE-matches `s` exactly when the case-folds
of `p` and of the first `p.length` characters of `s` agree — the escaping
disables every wildcard. -/
theorem sqliteLike_escape_starts : ∀ (p s : List Char),
    sqliteLike (escapeLikeChars p ++ ['%']) s = true ↔
      (s.take p.length).map likeFold = p.map likeFold := by
  intro p
  induction p with
  | nil =>
    intro s
    simp [escapeLikeChars, sqliteLike_percent]
  | cons c p2 ih =>
    intro s
    by_cases hsp : c = '\\' ∨ c = '%' ∨ c = '_'
    · have hE : escapeLikeChars (c :: p2) ++ ['%'] =
          '\\' :: c :: (escapeLikeChars p2 ++ ['%']) := by
        simp [escapeLikeChars, hsp]
      rw [hE, sqliteLike_esc]
      cases s with
      | nil => simp
      | cons d s2 =>
        simp only [List.length_cons, List.take_succ_cons, List.map_cons,
          List.cons.injEq]
        rw [Bool.and_eq_true, decide_eq_true_eq]
        rw [ih s2]
        constructor
        · intro h
          exact ⟨h.1.symm, h.2⟩
        · intro h
          exact ⟨h.1.symm, h.2⟩
    · push_neg at hsp
      obtain ⟨hc1, hc2, hc3⟩ := hsp
      have hE : escapeLikeChars (c :: p2) ++ ['%'] =
          c :: (escapeLikeChars p2 ++ ['%']) := by
        simp [escapeLikeChars, hc1, hc2, hc3]
      rw [hE, sqliteLike_plain c _ s hc2 hc3 hc1]
      cases s with
      | nil => simp
      | cons d s2 =>
        simp only [List.length_cons, List.take_succ_cons, List.map_cons,
          List.cons.injEq]
        rw [Bool.and_eq_true, decide_eq_true_eq]
        rw [ih s2]
        constructor
        · intro h
          exact ⟨h.1.symm, h.2⟩
        · intro h
          exact ⟨h.1.symm, h.2⟩

/-- The same characterization at the `moveTreeMatches` level. -/
theorem moveTreeMatches_iff (oldPre path : String) :
    moveTreeMatches oldPre path = true ↔
      (path.toList.take oldPre.toList.length).map likeFold =
        oldPre.toList.map likeFold :=
  sqliteLike_escape_starts oldPre.toList path.toList

/-- Counterexample to claim C4 as stated: SQLite's default LIKE is
ASCII-case-insensitive, so `MoveTree("/a/b", "/a/z")` also rewrites the
record at `/A/B/x.pdf`, whose path does not lie under `/a/b/`. -/
theorem claim_C4_counterexample :
    MoveTree "/a/b" "/a/z" [c4row] = .ok [{ c4row with path := "/a/z/x.pdf" }] ∧
    c4row.path.toList.take ("/a/b/".toList.length) ≠ "/a/b/".toList := by
  constructor
  · rfl
  · decide

/-- Claim C4, amended: after trailing-separator normalization, and
provided no rewritten path coincides with another row's old or new path
(otherwise the underlying UPDATE aborts with a UNIQUE-constraint error
and rewrites nothing), `MoveTree` rewrites exactly the records whose path
starts with the old prefix under ASCII-case-insensitive comparison — so
every path literally under `oldDir/` is rewritten, `/a/bc/...` is not,
LIKE metacharacters have no wildcard effect, but a path differing from
`oldDir/` only in ASCII letter case is also rewritten.  The suffix past
the prefix is preserved exactly. -/
theorem claim_C4 (oldDir newDir : String) (tbl : List Row)
    (oldPre newPre : String)
    (h1 : normalizeDirPrefix oldDir = .ok oldPre)
    (h2 : normalizeDirPrefix newDir = .ok newPre)
    (hne : oldPre ≠ newPre)
    (hnd : (tbl.map (fun r => r.path)).Nodup)
    (hcol1 : ∀ r ∈ tbl, moveTreeMatches oldPre r.path = true →
      ∀ r2 ∈ tbl, r2.path ≠ r.path →
        moveTreeRewrite oldPre newPre r.path ≠ r2.path)
    (hcol2 : ∀ r ∈ tbl, moveTreeMatches oldPre r.path = true →
      ∀ r2 ∈ tbl, r2.path ≠ r.path → moveTreeMatches oldPre r2.path = true →
        moveTreeRewrite oldPre newPre r.path ≠ moveTreeRewrite oldPre newPre r2.path) :
    MoveTree oldDir newDir tbl = .ok (tbl.map (fun r =>
      if (r.path.toList.take oldPre.toList.length).map likeFold =
          oldPre.toList.map likeFold then
        { r with path := newPre ++ String.mk (r.path.toList.drop oldPre.toList.length) }
      else r)) := by
  unfold MoveTree
  rw [h1, h2]
  simp only [Bind.bind, Except.bind]
  rw [if_neg hne]
  rw [updatePathScan_ok (fun p => moveTreeMatches oldPre p)
    (moveTreeRewrite oldPre newPre) tbl []
    (fun r _ _ r2 hr2 => absurd hr2 (List.not_mem_nil r2))
    hcol1 hcol2 hnd]
  rw [List.nil_append]
  dsimp only [pure, Except.pure]
  congr 1
  apply List.map_congr_left
  intro r _
  by_cases hm : moveTreeMatches oldPre r.path = true
  · rw [if_pos hm, if_pos (moveTreeMatches_iff oldPre r.path |>.mp hm)]
    rfl
  · rw [if_neg hm, if_neg (fun hc => hm ((moveTreeMatches_iff oldPre r.path).mpr hc))]

/-- Witness of the amended claim C4 at a concrete collision-free call. -/
theorem claim_C4_witness :
    MoveTree "/a/b" "/a/z" [c4row] = .ok ([c4row].map (fun r =>
      if (r.path.toList.take ("/a/b/" : String).toList.length).map likeFold =
          ("/a/b/" : String).toList.map likeFold then
        { r with path := "/a/z/" ++
            String.mk (r.path.toList.drop ("/a/b/" : String).toList.length) }
      else r)) :=
  claim_C4 "/a/b" "/a/z" [c4row] "/a/b/" "/a/z/" rfl rfl (by decide)
    (by decide) (by decide) (by decide)

end MoveTreeClaims

section RecentlyOpenedList

/-- Claim C8: `ListRecentlyOpened(limit)` returns only records with
non-zero `last_opened_at`, at most `limit` of them (20 when
`limit <= 0`), ordered most-recent-first with lowered title then path as
the secondary tiebreak (`recentLE` is exactly the query's ORDER BY). -/
theorem claim_C8 (limit : Int) (tbl : List Row) :
    ListRecentlyOpened limit tbl = (recentRows limit tbl).map scanMetadataRow ∧
    (∀ r ∈ recentRows limit tbl, 0 < r.last_opened_at) ∧
    (recentRows limit tbl).length ≤ (if limit ≤ 0 then (20 : Int) else limit).toNat ∧
    (recentRows limit tbl).Pairwise (fun a b => recentLE a b = true) ∧
    (limit ≤ 0 → ListRecentlyOpened limit tbl = ListRecentlyOpened 20 tbl) ∧
    (∀ m ∈ ListRecentlyOpened limit tbl, m.last_opened_at ≠ 0) := by
  have hmem : ∀ r ∈ recentRows limit tbl, 0 < r.last_opened_at := by
    intro r hr
    unfold recentRows at hr
    have hr2 := (List.take_sublist _ _).mem hr
    have hr3 := List.mem_mergeSort.mp hr2
    have := List.mem_filter.mp hr3
    exact of_decide_eq_true this.2
  refine ⟨rfl, hmem, ?_, ?_, ?_, ?_⟩
  · unfold recentRows
    rw [List.length_take]
    exact min_le_left _ _
  · unfold recentRows
    refine List.Pairwise.sublist (List.take_sublist _ _) ?_
    exact List.sorted_mergeSort
      (fun a b c => recentLE_trans a b c) (fun a b => recentLE_total a b) _
  · intro hle
    unfold ListRecentlyOpened recentRows
    rw [if_pos hle]
    simp
  · intro m hm
    unfold ListRecentlyOpened at hm
    rcases List.mem_map.mp hm with ⟨r, hr, hsc⟩
    have := hmem r hr
    rw [← hsc]
    show r.last_opened_at ≠ 0
    omega

/-- Witness of claim C8: a non-positive limit still returns the opened
rows, most recent first. -/
theorem claim_C8_witness :
    (∀ r ∈ recentRows (-1) wtbl, 0 < r.last_opened_at) ∧
    (recentRows (-1) wtbl).Pairwise (fun a b => recentLE a b = true) :=
  ⟨(claim_C8 (-1) wtbl).2.1, (claim_C8 (-1) wtbl).2.2.2.1⟩

end RecentlyOpenedList

section PathLemmas

theorem CleanL_nil : CleanL [] := by
  intro c hc
  exact absurd hc (List.not_mem_nil c)

theorem cleanCompsFrom_preserves (l : List String) :
    ∀ acc : List String, CleanL acc → CleanL (cleanCompsFrom acc l) := by
  induction l with
  | nil =>
    intro acc h
    exact h
  | cons c rest ih =>
    intro acc h
    rw [cleanCompsFrom]
    by_cases h1 : c = "" ∨ c = "."
    · rw [if_pos h1]
      exact ih acc h
    · rw [if_neg h1]
      by_cases h2 : c = ".."
      · rw [if_pos h2]
        refine ih _ ?_
        intro d hd
        exact h d ((List.dropLast_sublist acc).mem hd)
      · rw [if_neg h2]
        refine ih _ ?_
        intro d hd
        rcases List.mem_append.mp hd with hd | hd
        · exact h d hd
        · push_neg at h1
          rw [List.mem_singleton.mp hd]
          exact ⟨h1.1, h1.2, h2⟩

theorem cleanComps_cleanL (l : List String) : CleanL (cleanComps l) :=
  cleanCompsFrom_preserves l [] CleanL_nil

theorem cleanCompsFrom_append (l : List String) :
    ∀ acc : List String, CleanL l → cleanCompsFrom acc l = acc ++ l := by
  induction l with
  | nil =>
    intro acc _
    rw [cleanCompsFrom, List.append_nil]
  | cons c rest ih =>
    intro acc h
    obtain ⟨h1, h2, h3⟩ := h c (List.mem_cons_self c rest)
    have hrest : CleanL rest := fun d hd => h d (List.mem_cons_of_mem c hd)
    rw [cleanCompsFrom, if_neg (not_or.mpr ⟨h1, h2⟩), if_neg h3, ih _ hrest]
    simp

theorem commonLen_le_left : ∀ a b : List String, commonLen a b ≤ a.length := by
  intro a
  induction a with
  | nil =>
    intro b
    rw [commonLen.eq_def]
    cases b <;> simp
  | cons x as ih =>
    intro b
    cases b with
    | nil => rw [commonLen.eq_def]; simp
    | cons y bs =>
      rw [commonLen]
      by_cases hxy : x = y
      · rw [if_pos hxy]
        have := ih bs
        simp only [List.length_cons]
        omega
      · rw [if_neg hxy]
        omega

theorem commonLen_take : ∀ a b : List String,
    a.take (commonLen a b) = b.take (commonLen a b) := by
  intro a
  induction a with
  | nil =>
    intro b
    rw [commonLen.eq_def]
    cases b <;> simp
  | cons x as ih =>
    intro b
    cases b with
    | nil => rw [commonLen.eq_def]; simp
    | cons y bs =>
      rw [commonLen]
      by_cases hxy : x = y
      · rw [if_pos hxy]
        simp only [List.take_succ_cons, hxy]
        rw [ih bs]
      · rw [if_neg hxy]
        simp

theorem cleanCompsFrom_replicate : ∀ (n : Nat) (acc l : List String),
    cleanCompsFrom acc (List.replicate n ".." ++ l) =
      cleanCompsFrom (acc.take (acc.length - n)) l := by
  intro n
  induction n with
  | zero =>
    intro acc l
    simp [List.take_length]
  | succ n ih =>
    intro acc l
    rw [List.replicate_succ, List.cons_append, cleanCompsFrom,
      if_neg (by decide : ¬((".." : String) = "" ∨ (".." : String) = ".")),
      if_pos rfl, ih]
    congr 1
    have hlen : acc.dropLast.length = acc.length - 1 := List.length_dropLast acc
    rw [hlen, List.dropLast_eq_take, List.take_take]
    congr 1
    omega

/-- Resolving the relative target written by the reconciliation recovers
the absolute target: `Clean(Join(dest, Rel(dest, target))) = target` for
clean absolute paths. -/
theorem cleanCompsFrom_relComps (base targ : List String)
    (ht : CleanL targ) :
    cleanCompsFrom base (relComps base targ) = targ := by
  unfold relComps
  rw [cleanCompsFrom_replicate]
  have hc1 := commonLen_le_left base targ
  have htake : base.take (base.length - (base.length - commonLen base targ)) =
      targ.take (commonLen base targ) := by
    rw [show base.length - (base.length - commonLen base targ) =
        commonLen base targ from by omega]
    exact commonLen_take base targ
  rw [htake, cleanCompsFrom_append]
  · exact List.take_append_drop _ targ
  · intro d hd
    exact ht d ((List.drop_sublist _ _).mem hd)

theorem resolveTarget_relComps (destAbs targ : List String)
    (ht : CleanL targ) :
    resolveTarget destAbs (.rel (relComps destAbs targ)) = targ :=
  cleanCompsFrom_relComps destAbs targ ht

end PathLemmas

section AssocLemmas

theorem lookupA_mapSnd {α β : Type} (g : α → β) (l : List (String × α)) (k : String) :
    lookupA (l.map (fun e => (e.1, g e.2))) k = (lookupA l k).map g := by
  induction l with
  | nil => rfl
  | cons e rest ih =>
    rw [List.map_cons, lookupA, lookupA]
    by_cases he : e.1 = k
    · rw [if_pos he, if_pos he]
      rfl
    · rw [if_neg he, if_neg he]
      exact ih

theorem eraseA_sublist {α : Type} (l : List (String × α)) (k : String) :
    (eraseA l k).Sublist l := by
  induction l with
  | nil => exact List.Sublist.refl []
  | cons e rest ih =>
    rw [eraseA]
    by_cases he : e.1 = k
    · rw [if_pos he]
      exact List.sublist_cons_self e rest
    · rw [if_neg he]
      exact List.Sublist.cons₂ e ih

theorem keys_nodup_eraseA {α : Type} (l : List (String × α)) (k : String)
    (h : (l.map Prod.fst).Nodup) : ((eraseA l k).map Prod.fst).Nodup :=
  List.Nodup.sublist (List.Sublist.map Prod.fst (eraseA_sublist l k)) h

theorem lookupA_eraseA_ne {α : Type} (l : List (String × α)) (k n : String)
    (hne : n ≠ k) : lookupA (eraseA l k) n = lookupA l n := by
  induction l with
  | nil => rfl
  | cons e rest ih =>
    rw [eraseA]
    by_cases he : e.1 = k
    · rw [if_pos he, lookupA, if_neg (by rw [he]; exact fun h => hne h.symm)]
    · rw [if_neg he, lookupA, lookupA]
      by_cases hen : e.1 = n
      · rw [if_pos hen, if_pos hen]
      · rw [if_neg hen, if_neg hen]
        exact ih

theorem lookupA_eraseA_self {α : Type} (l : List (String × α)) (k : String)
    (h : (l.map Prod.fst).Nodup) : lookupA (eraseA l k) k = none := by
  induction l with
  | nil => rfl
  | cons e rest ih =>
    rw [List.map_cons, List.nodup_cons] at h
    rw [eraseA]
    by_cases he : e.1 = k
    · rw [if_pos he]
      cases hl : lookupA rest k with
      | none => rfl
      | some v =>
        exfalso
        have : k ∈ rest.map Prod.fst := by
          clear ih h he
          induction rest with
          | nil => exact absurd hl (by rw [lookupA]; simp)
          | cons e2 r2 ih2 =>
            rw [lookupA] at hl
            by_cases h2 : e2.1 = k
            · rw [List.map_cons, h2]
              exact List.mem_cons_self k _
            · rw [if_neg h2] at hl
              exact List.mem_cons_of_mem _ (ih2 hl)
        rw [← he] at this
        exact h.1 this
    · rw [if_neg he, lookupA, if_neg he]
      exact ih h.2

theorem lookupA_sub_of_eraseA {α : Type} (l : List (String × α)) (k n : String)
    (t : α) (hnd : (l.map Prod.fst).Nodup)
    (h : lookupA (eraseA l k) n = some t) : lookupA l n = some t := by
  by_cases hne : n = k
  · subst hne
    rw [lookupA_eraseA_self l n hnd] at h
    exact absurd h (by simp)
  · rw [lookupA_eraseA_ne l k n hne] at h
    exact h

theorem lookupA_none_iff_not_mem_keys {α : Type} (l : List (String × α)) (k : String) :
    lookupA l k = none ↔ k ∉ l.map Prod.fst := by
  induction l with
  | nil => simp [lookupA]
  | cons e rest ih =>
    rw [lookupA, List.map_cons]
    by_cases he : e.1 = k
    · rw [if_pos he]
      simp [he]
    · rw [if_neg he]
      rw [List.mem_cons]
      constructor
      · intro h hc
        rcases hc with hc | hc
        · exact he hc.symm
        · exact (ih.mp h) hc
      · intro h
        exact ih.mpr (fun hc => h (Or.inr hc))

theorem keys_insertOverwrite (l : List (String × List String)) (k : String)
    (v : List String) (h : (l.map Prod.fst).Nodup) :
    ((insertOverwrite l k v).map Prod.fst).Nodup := by
  unfold insertOverwrite
  by_cases ha : l.any (fun e => e.1 = k) = true
  · rw [if_pos ha]
    have : (l.map (fun e => if e.1 = k then (k, v) else e)).map Prod.fst =
        l.map Prod.fst := by
      rw [List.map_map]
      apply List.map_congr_left
      intro e _
      by_cases he : e.1 = k
      · simp [he]
      · simp [he]
    rw [this]
    exact h
  · rw [if_neg ha]
    rw [List.map_append]
    rw [List.nodup_append]
    refine ⟨h, by simp, ?_⟩
    intro a haml
    simp only [List.map_cons, List.map_nil, List.mem_singleton]
    intro hak
    subst hak
    rcases List.mem_map.mp haml with ⟨e, hel, hek⟩
    have : l.any (fun e => e.1 = a) = true :=
      List.any_eq_true.mpr ⟨e, hel, by rw [hek]; simp⟩
    rw [this] at ha
    exact ha rfl

theorem mem_insertOverwrite (l : List (String × List String)) (k : String)
    (v : List String) (e : String × List String)
    (h : e ∈ insertOverwrite l k v) : e ∈ l ∨ e = (k, v) := by
  unfold insertOverwrite at h
  by_cases ha : l.any (fun e2 => e2.1 = k) = true
  · rw [if_pos ha] at h
    rcases List.mem_map.mp h with ⟨e2, he2, heq⟩
    by_cases h2 : e2.1 = k
    · rw [if_pos h2] at heq
      right
      exact heq.symm
    · rw [if_neg h2] at heq
      left
      rw [← heq]
      exact he2
  · rw [if_neg ha] at h
    rcases List.mem_append.mp h with h | h
    · left; exact h
    · right; exact List.mem_singleton.mp h

theorem key_mem_insertOverwrite (l : List (String × List String)) (k : String)
    (v : List String) : k ∈ (insertOverwrite l k v).map Prod.fst := by
  unfold insertOverwrite
  by_cases ha : l.any (fun e2 => e2.1 = k) = true
  · rw [if_pos ha]
    rcases List.any_eq_true.mp ha with ⟨e, hel, hek⟩
    refine List.mem_map.mpr ⟨(k, v), ?_, rfl⟩
    refine List.mem_map.mpr ⟨e, hel, ?_⟩
    rw [if_pos (of_decide_eq_true hek)]
  · rw [if_neg ha]
    rw [List.map_append]
    exact List.mem_append.mpr (Or.inr (by simp))

theorem key_mono_insertOverwrite (l : List (String × List String)) (k k2 : String)
    (v : List String) (h : k2 ∈ l.map Prod.fst) :
    k2 ∈ (insertOverwrite l k v).map Prod.fst := by
  unfold insertOverwrite
  by_cases ha : l.any (fun e2 => e2.1 = k) = true
  · rw [if_pos ha]
    rcases List.mem_map.mp h with ⟨e, hel, hek⟩
    by_cases he : e.1 = k
    · refine List.mem_map.mpr ⟨(k, v), List.mem_map.mpr ⟨e, hel, by rw [if_pos he]⟩, ?_⟩
      rw [← hek, he]
    · exact List.mem_map.mpr ⟨e, List.mem_map.mpr ⟨e, hel, by rw [if_neg he]⟩, hek⟩
  · rw [if_neg ha]
    rw [List.map_append]
    exact List.mem_append.mpr (Or.inl h)

end AssocLemmas

section DesiredLemmas

theorem keys_nodup_desiredStep (files : List (List String)) (now : Nat)
    (acc : List (String × List String)) (md : Metadata)
    (h : (acc.map Prod.fst).Nodup) :
    ((desiredStep files now acc md).map Prod.fst).Nodup := by
  unfold desiredStep
  by_cases h1 : trimSpace md.path = ""
  · rw [if_pos h1]; exact h
  · rw [if_neg h1]
    by_cases h2 : files.contains (canonicalComps (trimSpace md.path)) = true
    · rw [if_pos h2]
      exact keys_insertOverwrite _ _ _ h
    · rw [if_neg h2]; exact h

theorem key_mono_desiredStep (files : List (List String)) (now : Nat)
    (acc : List (String × List String)) (md : Metadata) (k : String)
    (h : k ∈ acc.map Prod.fst) :
    k ∈ (desiredStep files now acc md).map Prod.fst := by
  unfold desiredStep
  by_cases h1 : trimSpace md.path = ""
  · rw [if_pos h1]; exact h
  · rw [if_neg h1]
    by_cases h2 : files.contains (canonicalComps (trimSpace md.path)) = true
    · rw [if_pos h2]
      exact key_mono_insertOverwrite _ _ _ _ h
    · rw [if_neg h2]; exact h

theorem mem_desiredStep (files : List (List String)) (now : Nat)
    (acc : List (String × List String)) (md : Metadata) (e : String × List String)
    (h : e ∈ desiredStep files now acc md) :
    e ∈ acc ∨ (trimSpace md.path ≠ "" ∧
      canonicalComps (trimSpace md.path) ∈ files ∧
      e.2 = canonicalComps (trimSpace md.path) ∧ e.1 = linkNameOf now md) := by
  unfold desiredStep at h
  by_cases h1 : trimSpace md.path = ""
  · rw [if_pos h1] at h
    exact Or.inl h
  · rw [if_neg h1] at h
    by_cases h2 : files.contains (canonicalComps (trimSpace md.path)) = true
    · rw [if_pos h2] at h
      rcases mem_insertOverwrite _ _ _ _ h with h | h
      · exact Or.inl h
      · right
        refine ⟨h1, by rw [← List.elem_iff]; exact h2, ?_, ?_⟩
        · rw [h]
        · rw [h]
          rfl
    · rw [if_neg h2] at h
      exact Or.inl h

theorem keys_nodup_desiredLinksAux (files : List (List String)) (now : Nat) :
    ∀ (list : List Metadata) (acc : List (String × List String)),
    (acc.map Prod.fst).Nodup →
    ((desiredLinksAux files now acc list).map Prod.fst).Nodup := by
  intro list
  induction list with
  | nil => intro acc h; exact h
  | cons md rest ih =>
    intro acc h
    rw [desiredLinksAux]
    exact ih _ (keys_nodup_desiredStep files now acc md h)

theorem keys_nodup_desiredLinks (files : List (List String)) (now : Nat)
    (list : List Metadata) :
    ((desiredLinks files now list).map Prod.fst).Nodup :=
  keys_nodup_desiredLinksAux files now list [] (by simp)

theorem mem_desiredLinksAux (files : List (List String)) (now : Nat) :
    ∀ (list : List Metadata) (acc : List (String × List String))
    (e : String × List String),
    e ∈ desiredLinksAux files now acc list →
    e ∈ acc ∨ ∃ md ∈ list, trimSpace md.path ≠ "" ∧
      canonicalComps (trimSpace md.path) ∈ files ∧
      e.2 = canonicalComps (trimSpace md.path) ∧ e.1 = linkNameOf now md := by
  intro list
  induction list with
  | nil =>
    intro acc e h
    exact Or.inl h
  | cons md rest ih =>
    intro acc e h
    rw [desiredLinksAux] at h
    rcases ih _ e h with h2 | h2
    · rcases mem_desiredStep files now acc md e h2 with h3 | h3
      · exact Or.inl h3
      · exact Or.inr ⟨md, List.mem_cons_self md rest, h3⟩
    · rcases h2 with ⟨md2, hmem, h3⟩
      exact Or.inr ⟨md2, List.mem_cons_of_mem md hmem, h3⟩

theorem mem_desiredLinks (files : List (List String)) (now : Nat)
    (list : List Metadata) (e : String × List String)
    (h : e ∈ desiredLinks files now list) :
    ∃ md ∈ list, trimSpace md.path ≠ "" ∧
      canonicalComps (trimSpace md.path) ∈ files ∧
      e.2 = canonicalComps (trimSpace md.path) ∧ e.1 = linkNameOf now md := by
  rcases mem_desiredLinksAux files now list [] e h with h2 | h2
  · exact absurd h2 (List.not_mem_nil e)
  · exact h2

theorem cleanL_desiredLinks (files : List (List String)) (now : Nat)
    (list : List Metadata) (e : String × List String)
    (h : e ∈ desiredLinks files now list) : CleanL e.2 := by
  rcases mem_desiredLinks files now list e h with ⟨md, _, _, _, ht, _⟩
  rw [ht]
  exact cleanComps_cleanL _

theorem key_mono_desiredLinksAux (files : List (List String)) (now : Nat) :
    ∀ (list : List Metadata) (acc : List (String × List String)) (k : String),
    k ∈ acc.map Prod.fst →
    k ∈ (desiredLinksAux files now acc list).map Prod.fst := by
  intro list
  induction list with
  | nil => intro acc k h; exact h
  | cons md rest ih =>
    intro acc k h
    rw [desiredLinksAux]
    exact ih _ k (key_mono_desiredStep files now acc md k h)

theorem name_mem_desiredLinksAux (files : List (List String)) (now : Nat) :
    ∀ (list : List Metadata) (acc : List (String × List String)) (md0 : Metadata),
    md0 ∈ list → trimSpace md0.path ≠ "" →
    canonicalComps (trimSpace md0.path) ∈ files →
    linkNameOf now md0 ∈ (desiredLinksAux files now acc list).map Prod.fst := by
  intro list
  induction list with
  | nil =>
    intro acc md0 hmem
    exact absurd hmem (List.not_mem_nil md0)
  | cons md rest ih =>
    intro acc md0 hmem hne hfiles
    rw [desiredLinksAux]
    rcases List.mem_cons.mp hmem with heq | hmem2
    · subst heq
      apply key_mono_desiredLinksAux
      unfold desiredStep
      rw [if_neg hne, if_pos (by rw [List.elem_iff]; exact hfiles)]
      exact key_mem_insertOverwrite _ _ _
    · exact ih _ md0 hmem2 hne hfiles

theorem name_lookup_desiredLinks (files : List (List String)) (now : Nat)
    (list : List Metadata) (md0 : Metadata) (hmem : md0 ∈ list)
    (hne : trimSpace md0.path ≠ "")
    (hfiles : canonicalComps (trimSpace md0.path) ∈ files) :
    ∃ t, lookupA (desiredLinks files now list) (linkNameOf now md0) = some t := by
  have hk := name_mem_desiredLinksAux files now list [] md0 hmem hne hfiles
  cases hl : lookupA (desiredLinks files now list) (linkNameOf now md0) with
  | none =>
    exact absurd hk ((lookupA_none_iff_not_mem_keys _ _).mp hl)
  | some t => exact ⟨t, rfl⟩

end DesiredLemmas

section CreatePhaseLemmas

theorem createPhase_nil (destAbs : List String) (links : List (String × LinkTarget))
    (rem : List (String × List String)) :
    createPhase destAbs links [] rem = ([], rem, []) := rfl

theorem createPhase_cons_none (destAbs : List String)
    (links : List (String × LinkTarget)) (name : String) (target : List String)
    (rest rem : List (String × List String)) (hl : lookupA rem name = none) :
    createPhase destAbs links ((name, target) :: rest) rem =
      (let r := createPhase destAbs links rest rem
       (.remove name :: .symlink name (relComps destAbs target) :: r.1, r.2.1,
        (name, .rel (relComps destAbs target)) :: r.2.2)) := by
  rw [createPhase.eq_def]
  dsimp only
  rw [hl]

theorem createPhase_cons_mismatch (destAbs : List String)
    (links : List (String × LinkTarget)) (name : String) (target et : List String)
    (rest rem : List (String × List String)) (hl : lookupA rem name = some et)
    (hne : et ≠ target) :
    createPhase destAbs links ((name, target) :: rest) rem =
      (let r := createPhase destAbs links rest rem
       (.remove name :: .symlink name (relComps destAbs target) :: r.1, r.2.1,
        (name, .rel (relComps destAbs target)) :: r.2.2)) := by
  rw [createPhase.eq_def]
  dsimp only
  rw [hl]
  dsimp only
  rw [if_neg hne]

theorem createPhase_cons_match (destAbs : List String)
    (links : List (String × LinkTarget)) (name : String) (target : List String)
    (rest rem : List (String × List String)) (hl : lookupA rem name = some target) :
    createPhase destAbs links ((name, target) :: rest) rem =
      (let r := createPhase destAbs links rest (eraseA rem name)
       (r.1, r.2.1,
        (name, (lookupA links name).getD (.rel (relComps destAbs target))) :: r.2.2)) := by
  rw [createPhase.eq_def]
  dsimp only
  rw [hl]
  dsimp only
  rw [if_pos rfl]

/-- The directory contents after the create loop: exactly the desired
entries, each resolving to its desired target (kept raw entries resolve to
the matched target, created relative entries resolve by the round-trip
property). -/
theorem createPhase_out (destAbs : List String) (links : List (String × LinkTarget)) :
    ∀ (ds rem : List (String × List String)),
    (∀ e ∈ ds, CleanL e.2) →
    (rem.map Prod.fst).Nodup →
    (∀ n t, lookupA rem n = some t →
      lookupA (links.map (fun e => (e.1, resolveTarget destAbs e.2))) n = some t) →
    ((createPhase destAbs links ds rem).2.2).map
      (fun e => (e.1, resolveTarget destAbs e.2)) = ds := by
  intro ds
  induction ds with
  | nil =>
    intro rem _ _ _
    rfl
  | cons nt rest ih =>
    obtain ⟨name, target⟩ := nt
    intro rem hcln hremnd hsub
    have hcleanT : CleanL target := hcln (name, target) (List.mem_cons_self _ _)
    have hcleanR : ∀ e ∈ rest, CleanL e.2 :=
      fun e he => hcln e (List.mem_cons_of_mem _ he)
    cases hl : lookupA rem name with
    | none =>
      rw [createPhase_cons_none destAbs links name target rest rem hl]
      dsimp only
      rw [List.map_cons]
      rw [ih rem hcleanR hremnd hsub]
      rw [resolveTarget_relComps destAbs target hcleanT]
    | some et =>
      by_cases het : et = target
      · subst het
        rw [createPhase_cons_match destAbs links name et rest rem hl]
        dsimp only
        rw [List.map_cons]
        rw [ih (eraseA rem name) hcleanR (keys_nodup_eraseA rem name hremnd)
          (fun n t h => hsub n t (lookupA_sub_of_eraseA rem name n t hremnd h))]
        have hex := hsub name et hl
        rw [lookupA_mapSnd] at hex
        cases hraw : lookupA links name with
        | none =>
          rw [hraw] at hex
          exact absurd hex (by simp)
        | some raw =>
          rw [hraw] at hex
          have hex2 : resolveTarget destAbs raw = et := by
            simpa using hex
          dsimp only [Option.getD_some]
          rw [hex2]
      · rw [createPhase_cons_mismatch destAbs links name target et rest rem hl het]
        dsimp only
        rw [List.map_cons]
        rw [ih rem hcleanR hremnd hsub]
        rw [resolveTarget_relComps destAbs target hcleanT]

/-- Running the create loop when the existing entries are exactly the
desired ones emits no action and consumes every existing entry. -/
theorem createPhase_diag (destAbs : List String) (links : List (String × LinkTarget)) :
    ∀ ds : List (String × List String),
    (createPhase destAbs links ds ds).1 = [] ∧
    (createPhase destAbs links ds ds).2.1 = [] := by
  intro ds
  induction ds with
  | nil => exact ⟨rfl, rfl⟩
  | cons nt rest ih =>
    obtain ⟨name, target⟩ := nt
    have hl : lookupA ((name, target) :: rest) name = some target := by
      rw [lookupA, if_pos rfl]
    have herase : eraseA ((name, target) :: rest) name = rest := by
      rw [eraseA, if_pos rfl]
    rw [createPhase_cons_match destAbs links name target rest _ hl, herase]
    exact ih

/-- Every action the create loop emits concerns a desired name. -/
theorem createPhase_act_names (destAbs : List String)
    (links : List (String × LinkTarget)) :
    ∀ (ds rem : List (String × List String)) (a : FsAction),
    a ∈ (createPhase destAbs links ds rem).1 → a.name ∈ ds.map Prod.fst := by
  intro ds
  induction ds with
  | nil =>
    intro rem a ha
    exact absurd ha (List.not_mem_nil a)
  | cons nt rest ih =>
    obtain ⟨name, target⟩ := nt
    intro rem a ha
    rw [List.map_cons]
    cases hl : lookupA rem name with
    | none =>
      rw [createPhase_cons_none destAbs links name target rest rem hl] at ha
      dsimp only at ha
      rcases List.mem_cons.mp ha with h | h
      · rw [h]; exact List.mem_cons_self _ _
      rcases List.mem_cons.mp h with h | h
      · rw [h]; exact List.mem_cons_self _ _
      · exact List.mem_cons_of_mem _ (ih rem a h)
    | some et =>
      by_cases het : et = target
      · subst het
        rw [createPhase_cons_match destAbs links name et rest rem hl] at ha
        dsimp only at ha
        exact List.mem_cons_of_mem _ (ih (eraseA rem name) a ha)
      · rw [createPhase_cons_mismatch destAbs links name target et rest rem hl het] at ha
        dsimp only at ha
        rcases List.mem_cons.mp ha with h | h
        · rw [h]; exact List.mem_cons_self _ _
        rcases List.mem_cons.mp h with h | h
        · rw [h]; exact List.mem_cons_self _ _
        · exact List.mem_cons_of_mem _ (ih rem a h)

/-- An existing entry whose name is desired with the matching target is
never the subject of a create-loop action. -/
theorem createPhase_untouched (destAbs : List String)
    (links : List (String × LinkTarget)) :
    ∀ (ds rem : List (String × List String)) (name0 : String) (t0 : List String),
    (ds.map Prod.fst).Nodup →
    (rem.map Prod.fst).Nodup →
    lookupA ds name0 = some t0 → lookupA rem name0 = some t0 →
    ∀ a ∈ (createPhase destAbs links ds rem).1, a.name ≠ name0 := by
  intro ds
  induction ds with
  | nil =>
    intro rem name0 t0 _ _ _ _ a ha
    exact absurd ha (List.not_mem_nil a)
  | cons nt rest ih =>
    obtain ⟨name, target⟩ := nt
    intro rem name0 t0 hdsnd hremnd hlds hlrem a ha
    rw [List.map_cons, List.nodup_cons] at hdsnd
    by_cases hn : name = name0
    · subst hn
      rw [lookupA, if_pos rfl] at hlds
      injection hlds with hlds
      subst hlds
      rw [createPhase_cons_match destAbs links name target rest rem hlrem] at ha
      dsimp only at ha
      intro han
      have := createPhase_act_names destAbs links rest (eraseA rem name) a ha
      rw [han] at this
      exact hdsnd.1 this
    · rw [lookupA, if_neg hn] at hlds
      cases hl : lookupA rem name with
      | none =>
        rw [createPhase_cons_none destAbs links name target rest rem hl] at ha
        dsimp only at ha
        rcases List.mem_cons.mp ha with h | h
        · rw [h]; exact hn
        rcases List.mem_cons.mp h with h | h
        · rw [h]; exact hn
        · exact ih rem name0 t0 hdsnd.2 hremnd hlds hlrem a h
      | some et =>
        by_cases het : et = target
        · subst het
          rw [createPhase_cons_match destAbs links name et rest rem hl] at ha
          dsimp only at ha
          refine ih (eraseA rem name) name0 t0 hdsnd.2
            (keys_nodup_eraseA rem name hremnd) hlds ?_ a ha
          rw [lookupA_eraseA_ne rem name name0 (fun h => hn h.symm)]
          exact hlrem
        · rw [createPhase_cons_mismatch destAbs links name target et rest rem hl het] at ha
          dsimp only at ha
          rcases List.mem_cons.mp ha with h | h
          · rw [h]; exact hn
          rcases List.mem_cons.mp h with h | h
          · rw [h]; exact hn
          · exact ih rem name0 t0 hdsnd.2 hremnd hlds hlrem a h

/-- Remove-loop actions never concern a desired name. -/
theorem removePhase_untouched (desired rem : List (String × List String))
    (name0 : String) (t0 : List String) (hlds : lookupA desired name0 = some t0) :
    ∀ a ∈ removePhase desired rem, a.name ≠ name0 := by
  intro a ha
  unfold removePhase at ha
  rcases List.mem_map.mp ha with ⟨e, hef, hea⟩
  have hfil := List.mem_filter.mp hef
  intro han
  rw [← hea] at han
  have : lookupA desired e.1 = none := of_decide_eq_true hfil.2
  rw [show (FsAction.remove e.1).name = e.1 from rfl] at han
  rw [han, hlds] at this
  exact Option.noConfusion this

end CreatePhaseLemmas

section MaterializerClaims

theorem keys_map_resolve (destAbs : List String) (links : List (String × LinkTarget)) :
    (links.map (fun e => (e.1, resolveTarget destAbs e.2))).map Prod.fst =
      links.map Prod.fst := by
  rw [List.map_map]
  apply List.map_congr_left
  intro e _
  rfl

theorem rebuild_eq (destAbs : List String) (files : List (List String))
    (links : List (String × LinkTarget)) (list : List Metadata) (now : Nat) :
    rebuildRecentlyOpenedDir destAbs files links list now =
      ((createPhase destAbs links (desiredLinks files now list)
          (links.map (fun e => (e.1, resolveTarget destAbs e.2)))).1 ++
        removePhase (desiredLinks files now list)
          (createPhase destAbs links (desiredLinks files now list)
            (links.map (fun e => (e.1, resolveTarget destAbs e.2)))).2.1,
       (createPhase destAbs links (desiredLinks files now list)
          (links.map (fun e => (e.1, resolveTarget destAbs e.2)))).2.2) := rfl

/-- Claim C5: an existing symlink whose name is desired and whose resolved
target matches the desired target is never touched by the reconciliation,
and a second reconciliation from the state the first one produced (same
store contents) emits zero filesystem mutations. -/
theorem claim_C5 (destAbs : List String) (files : List (List String))
    (links : List (String × LinkTarget)) (list : List Metadata) (now : Nat)
    (hnd : (links.map Prod.fst).Nodup) :
    (∀ (name : String) (t : List String),
      lookupA (desiredLinks files now list) name = some t →
      lookupA (links.map (fun e => (e.1, resolveTarget destAbs e.2))) name = some t →
      ∀ a ∈ (rebuildRecentlyOpenedDir destAbs files links list now).1, a.name ≠ name) ∧
    (rebuildRecentlyOpenedDir destAbs files
      (rebuildRecentlyOpenedDir destAbs files links list now).2 list now).1 = [] := by
  have hexnd : ((links.map (fun e => (e.1, resolveTarget destAbs e.2))).map Prod.fst).Nodup := by
    rw [keys_map_resolve]
    exact hnd
  constructor
  · intro name t hld hle a ha
    rw [rebuild_eq] at ha
    rcases List.mem_append.mp ha with ha | ha
    · exact createPhase_untouched destAbs links _ _ name t
        (keys_nodup_desiredLinks files now list) hexnd hld hle a ha
    · exact removePhase_untouched _ _ name t hld a ha
  · have hout : ((rebuildRecentlyOpenedDir destAbs files links list now).2).map
        (fun e => (e.1, resolveTarget destAbs e.2)) = desiredLinks files now list := by
      rw [rebuild_eq]
      exact createPhase_out destAbs links _ _
        (fun e he => cleanL_desiredLinks files now list e he) hexnd
        (fun n t h => h)
    rw [rebuild_eq destAbs files (rebuildRecentlyOpenedDir destAbs files links list now).2]
    rw [hout]
    rcases createPhase_diag destAbs
      ((rebuildRecentlyOpenedDir destAbs files links list now).2)
      (desiredLinks files now list) with ⟨h1, h2⟩
    rw [h1, h2]
    rfl

/-- Witness of claim C5: rebuilding twice over two opened files changes
nothing the second time. -/
theorem claim_C5_witness :
    (rebuildRecentlyOpenedDir ["links"] w5files
      (rebuildRecentlyOpenedDir ["links"] w5files [] w5list 0).2 w5list 0).1 = [] :=
  (claim_C5 ["links"] w5files [] w5list 0 (by simp)).2

theorem createPhase_from_empty (destAbs : List String)
    (links : List (String × LinkTarget)) :
    ∀ ds : List (String × List String),
    (createPhase destAbs links ds []).2.2 =
      ds.map (fun e => (e.1, LinkTarget.rel (relComps destAbs e.2))) ∧
    (createPhase destAbs links ds []).2.1 = [] := by
  intro ds
  induction ds with
  | nil => exact ⟨rfl, rfl⟩
  | cons nt rest ih =>
    obtain ⟨name, target⟩ := nt
    rw [createPhase_cons_none destAbs links name target rest [] rfl]
    dsimp only
    rw [List.map_cons]
    exact ⟨by rw [ih.1], ih.2⟩

/-- Counterexample to claim C6 as stated: two distinct records whose
targets both exist, sharing the same base name, empty title and the same
last-opened second, collapse to a single link name, so the reconciled
directory holds one symlink for two surviving records. -/
theorem claim_C6_counterexample :
    ((rebuildRecentlyOpenedDir ["links"] c6files [] [c6md1, c6md2] 0).2).length = 1 ∧
    c6md1.path ≠ c6md2.path ∧
    trimSpace c6md1.path ≠ "" ∧ trimSpace c6md2.path ≠ "" ∧
    canonicalComps (trimSpace c6md1.path) ∈ c6files ∧
    canonicalComps (trimSpace c6md2.path) ∈ c6files := by decide

/-- Claim C6, amended: reconciling into an empty directory creates exactly
one relative symlink per entry of the desired map — one per distinct link
name among the surviving (existing-target) records, where records sharing
both display name and last-opened second collapse onto one name, the
record latest in query order providing the target.  The created names are
pairwise distinct, every desired entry's target exists on disk and stems
from a surviving record, and every surviving record's link name is present
in the desired map. -/
theorem claim_C6 (destAbs : List String) (files : List (List String))
    (list : List Metadata) (now : Nat) :
    (rebuildRecentlyOpenedDir destAbs files [] list now).2 =
      (desiredLinks files now list).map
        (fun e => (e.1, LinkTarget.rel (relComps destAbs e.2))) ∧
    (((rebuildRecentlyOpenedDir destAbs files [] list now).2).map Prod.fst).Nodup ∧
    (∀ e ∈ desiredLinks files now list, e.2 ∈ files ∧ ∃ md ∈ list,
      trimSpace md.path ≠ "" ∧ e.2 = canonicalComps (trimSpace md.path) ∧
      e.1 = linkNameOf now md) ∧
    (∀ md ∈ list, trimSpace md.path ≠ "" →
      canonicalComps (trimSpace md.path) ∈ files →
      ∃ t, lookupA (desiredLinks files now list) (linkNameOf now md) = some t) := by
  have h1 : (rebuildRecentlyOpenedDir destAbs files [] list now).2 =
      (desiredLinks files now list).map
        (fun e => (e.1, LinkTarget.rel (relComps destAbs e.2))) := by
    rw [rebuild_eq]
    exact (createPhase_from_empty destAbs [] (desiredLinks files now list)).1
  refine ⟨h1, ?_, ?_, ?_⟩
  · rw [h1, List.map_map]
    have : (Prod.fst ∘ fun e : String × List String =>
        (e.1, LinkTarget.rel (relComps destAbs e.2))) = Prod.fst := by
      funext e
      rfl
    rw [this]
    exact keys_nodup_desiredLinks files now list
  · intro e he
    rcases mem_desiredLinks files now list e he with ⟨md, hmem, hne, hfiles, ht, hn⟩
    refine ⟨by rw [ht]; exact hfiles, md, hmem, hne, ht, hn⟩
  · intro md hmem hne hfiles
    exact name_lookup_desiredLinks files now list md hmem hne hfiles

end MaterializerClaims

end Gorae
